import Mathlib

/-!
# A verification model of the tokay HTTP router

This file gives a shallow embedding, in Lean 4, of the core of the
`night-codes/tokay` web framework: the route registration layer
(`newRoute`, `buildURLTemplate`, `Route.URL`, `Route.add`,
`combineHandlers`), the dispatcher (`Engine.find`,
`Engine.findAllowedMethods`, `MethodNotAllowedHandler`,
`NotFoundHandler`, `Engine.HandleRequest`) and the middleware pipeline
(`Context.Next`, `Context.Abort`, `Context.init`).

Pure Go functions become Lean functions on `String`/`List Char`;
the mutable `Context` becomes a record threaded through handlers in
state-passing style.  Handlers are embedded as a closed inductive
`HStep` of the handler shapes used in this development, interpreted by
`run`; two ghost fields (`log`, `visited`) record, without influencing
the semantics, which handlers executed and at which chain positions.

The radix-tree route store (`store.go`) and the `RouterGroup` methods
(`routergroup.go`) are not part of the provided sources (only their
callers, declarations and tests are); they are modelled from the
specification and marked `Modelled from the spec:` below.
-/

set_option maxRecDepth 8000

namespace Tokay

/-! ## Path patterns and the route store -/

/-- A parsed component of a route pattern: either a literal run of
characters, or a parameter token `<name>` / `<name:regex>` (the
`re` field holds the regex text when present). -/
inductive Seg
  | lit (s : String)
  | param (name : String) (re : Option String)
  deriving DecidableEq

/-- Modelled from the spec: pattern syntax of §6 — literal path
segments and tokens delimited by `<` and `>`, with the parameter name
running up to the first `:` and the regex constraint after it.  One
pass over the characters; `inside` says whether a `<` is open, `acc`
accumulates the current literal run and `tokBuf` the current token
body.  An unclosed `<` leaves the remaining characters as a literal,
matching the behaviour of `buildURLTemplate` on such inputs. -/
def parseGo : List Char → Bool → List Char → List Char → List Seg
  | [], false, acc, _ => if acc = [] then [] else [Seg.lit ⟨acc⟩]
  | [], true, acc, tokBuf => [Seg.lit ⟨acc ++ '<' :: tokBuf⟩]
  | c :: cs, false, acc, tokBuf =>
    if c = '<' then parseGo cs true acc []
    else parseGo cs false (acc ++ [c]) tokBuf
  | c :: cs, true, acc, tokBuf =>
    if c = '>' then
      let name := tokBuf.takeWhile (· ≠ ':')
      let re := if name.length = tokBuf.length then none
                else some ⟨tokBuf.drop (name.length + 1)⟩
      (if acc = [] then [] else [Seg.lit ⟨acc⟩]) ++
        Seg.param ⟨name⟩ re :: parseGo cs false [] []
    else parseGo cs true acc (tokBuf ++ [c])

/-- A route pattern, parsed. -/
def parsePattern (pattern : String) : List Seg :=
  parseGo pattern.data false [] []

/-- Modelled from the spec: §4.1 `Get` consumes, at a parameter node, a
maximal run of non-separator characters (`<name>`, one-or-more per §6),
or the longest prefix matching the compiled constraint.  The regex
constraints appearing in this development (`\d+` and the catch-all
`.*`) are modelled executably; any other constraint is modelled as
unsatisfiable. -/
def takeCon : Option String → List Char → Option (List Char)
  | none, cs =>
    let r := cs.takeWhile (· ≠ '/')
    if r = [] then none else some r
  | some re, cs =>
    if re = "\\d+" then
      let d := cs.takeWhile Char.isDigit
      if d = [] then none else some d
    else if re = ".*" then some cs
    else none

/-- Modelled from the spec: structural matching of a parsed pattern
against a concrete path, literal runs matched exactly and parameter
tokens by greedy (maximal-munch) consumption; returns the ordered
name/value bindings on success. -/
def matchSegs : List Seg → List Char → Option (List (String × String))
  | [], [] => some []
  | [], _ :: _ => none
  | Seg.lit s :: rest, cs =>
    if s.data.isPrefixOf cs then matchSegs rest (cs.drop s.data.length)
    else none
  | Seg.param n re :: rest, cs =>
    match takeCon re cs with
    | none => none
    | some taken =>
      (matchSegs rest (cs.drop taken.length)).map
        (fun bs => (n, (⟨taken⟩ : String)) :: bs)

/-- Number of parameter tokens in a parsed pattern. -/
def countParams (segs : List Seg) : Nat :=
  (segs.filter (fun s => match s with | Seg.param _ _ => true | _ => false)).length

/-- Modelled from the spec: the per-method route store (`store.go` is
not among the provided sources).  Per §3, “if two patterns could match
the same request path, the one inserted first wins — the tree must
resolve this deterministically via insertion-order priority”; the model
therefore keeps routes in insertion order and `Get` returns the first
structural match.  `maxp` is the maximum parameter count over the
stored routes, as required by the `Add` contract of §4.1. -/
structure store (α : Type) where
  routes : List (List Seg × α) := []
  maxp : Nat := 0
  deriving DecidableEq

/-- A fresh, empty route store (`newStore`). -/
def newStore (α : Type) : store α := {}

/-- Modelled from the spec: `Add(pattern, payload) int` inserts the
pattern and returns the maximum number of parameters any route in the
store now requires (§4.1). -/
def store.Add (s : store α) (key : String) (data : α) : store α × Nat :=
  let segs := parsePattern key
  let m := max s.maxp (countParams segs)
  ({ routes := s.routes ++ [(segs, data)], maxp := m }, m)

/-- First structural match in insertion order. -/
def storeScan (rs : List (List Seg × α)) (cs : List Char) :
    Option (α × List String × List String) :=
  match rs with
  | [] => none
  | (segs, d) :: rest =>
    match matchSegs segs cs with
    | some bs => some (d, bs.map Prod.fst, bs.map Prod.snd)
    | none => storeScan rest cs

/-- Modelled from the spec: `Get(path)` walks the stored routes and
returns the payload, parameter names and parameter values of the first
(insertion-order) structural match, or `none` when no route matches.
(The Go signature writes the values into a caller-supplied buffer; the
model returns them.) -/
def store.Get (s : store α) (path : String) :
    Option (α × List String × List String) :=
  storeScan s.routes path.data

/-! ## Handlers, groups, routes, engine -/

/-- The handler shapes interpreted by the pipeline in this development.
Go handlers are arbitrary `func(*Context)`; the embedding is the closed
family actually needed by the verified properties: a logging handler, a
logging handler that calls `Context.Abort`, a logging handler that
calls `Context.Next` and logs again after the downstream chain returns
(onion-style middleware), and the two library handlers
`MethodNotAllowedHandler` and `NotFoundHandler`. -/
inductive HStep
  | tag (name : String)
  | abortTag (name : String)
  | nest (name : String)
  | mna
  | nf
  deriving DecidableEq

/-- `combineHandlers` merges two handler lists into a new list
(`make` + two `copy`s in Go, i.e. concatenation). -/
def combineHandlers (h1 h2 : List HStep) : List HStep := h1 ++ h2

/-- Modelled from the spec: `RouterGroup` (routergroup.go is not among
the provided sources; only its callers and tests are).  A group is a
path prefix plus the handler list shared by its routes (§4.2).  The Go
struct also holds the engine pointer; the model passes the engine
explicitly instead. -/
structure RouterGroup where
  path : String
  handlers : List HStep
  deriving DecidableEq

/-- `newRouteGroup(path, engine, handlers)` without the engine pointer. -/
def newRouteGroup (path : String) (handlers : List HStep) : RouterGroup :=
  ⟨path, handlers⟩

/-- Modelled from the spec (§4.2): `Group(prefix, handlers...)` creates
a child group whose path is the concatenation of the parent prefix and
the given prefix; if no handlers are given it inherits a copy of the
parent's current handler list. -/
def RouterGroup.Group (g : RouterGroup) (sub : String) (handlers : List HStep) :
    RouterGroup :=
  if handlers = [] then ⟨g.path ++ sub, g.handlers⟩ else ⟨g.path ++ sub, handlers⟩

/-- Modelled from the spec (§4.2): `Use(handlers...)` appends to the
group's handler list. -/
def RouterGroup.Use (g : RouterGroup) (handlers : List HStep) : RouterGroup :=
  { g with handlers := g.handlers ++ handlers }

/-- `Route` from route.go: owning group, name, compiled path and URL
template. -/
structure Route where
  group : RouterGroup
  name : String
  path : String
  template : String
  deriving DecidableEq

/-- Association-list lookup, the model of reading a Go map key
(`m[k]`, yielding the zero value `none` when absent). -/
def alistGet (l : List (String × α)) (k : String) : Option α :=
  match l with
  | [] => none
  | (k2, v) :: t => if k2 = k then some v else alistGet t k

/-- Association-list update, the model of a Go map assignment
(`m[k] = v`). -/
def alistSet (l : List (String × α)) (k : String) (v : α) : List (String × α) :=
  match l with
  | [] => [(k, v)]
  | (k2, v2) :: t => if k2 = k then (k, v) :: t else (k2, v2) :: alistSet t k v

/-- `Engine` from engine.go, restricted to the fields the core
dispatch/registration logic reads and writes. -/
structure Engine where
  stores : List (String × store (List HStep)) := []
  routes : List (String × Route) := []
  handlers : List HStep := []
  notFound : List HStep := []
  notFoundHandlers : List HStep := []
  maxParams : Nat := 0
  RedirectTrailingSlash : Bool := true
  deriving DecidableEq

/-! ## URL templates and `Route.URL` -/

/-- The scanning state of `buildURLTemplate`'s loop, carried as
accumulated slices instead of Go's absolute indices: `inside`
corresponds to `start >= 0`, `tokBuf` to `path[start+1:i]`, `pending`
to `path[end+1:min(start,i)]`, `closed` to `end >= 0` and `tmpl` to
`template`.  The final result appends `path[end+1:]`, which is
`pending` plus the unclosed token text when one is open. -/
def butGo : List Char → Bool → List Char → List Char → List Char → Bool →
    List Char × Bool
  | [], inside, tokBuf, pending, tmpl, closed =>
    (tmpl ++ pending ++ (if inside then '<' :: tokBuf else []), closed)
  | c :: cs, inside, tokBuf, pending, tmpl, closed =>
    if c = '<' ∧ inside = false then butGo cs true [] pending tmpl closed
    else if c = '>' ∧ inside = true then
      butGo cs false [] []
        (tmpl ++ pending ++ '<' :: tokBuf.takeWhile (· ≠ ':') ++ ['>']) true
    else if inside then butGo cs true (tokBuf ++ [c]) pending tmpl closed
    else butGo cs false tokBuf (pending ++ [c]) tmpl closed

/-- `buildURLTemplate` from route.go: strips the regex constraint of
every `<name:regex>` token, keeping `<name>`; when no token is ever
closed (`end < 0` in Go) the path is returned unchanged. -/
def buildURLTemplate (path : String) : String :=
  let r := butGo path.data false [] [] [] false
  if r.2 then ⟨r.1⟩ else path

/-- Uppercase hexadecimal digit. -/
def hexUpper (n : Nat) : Char :=
  if n < 10 then Char.ofNat ('0'.toNat + n) else Char.ofNat ('A'.toNat + (n - 10))

/-- Characters Go's `url.QueryEscape` leaves unescaped. -/
def isUnreserved (c : Char) : Bool :=
  c.isAlpha ∨ c.isDigit ∨ c = '-' ∨ c = '_' ∨ c = '.' ∨ c = '~'

/-- Escape one character the way `url.QueryEscape` does: unreserved
characters unchanged, space to `+`, anything else percent-encoded per
UTF-8 byte with uppercase hex. -/
def escapeChar (c : Char) : List Char :=
  if isUnreserved c then [c]
  else if c = ' ' then ['+']
  else (String.utf8EncodeChar c).map
    (fun b => ['%', hexUpper (b.toNat / 16), hexUpper (b.toNat % 16)]) |>.flatten

/-- Model of Go's `url.QueryEscape` (an external library routine). -/
def queryEscape (s : String) : String := ⟨(s.data.map escapeChar).flatten⟩

/-- Model of Go's `strings.Replace(s, old, new, -1)` for a non-empty
`old`: left-to-right, non-overlapping replacement of every occurrence.
(The Go special case of an empty `old` never arises: the patterns used
are always of the form `<...>`.) -/
def replChars (s pat rep : List Char) : List Char :=
  match s with
  | [] => []
  | c :: rest =>
    if h : pat ≠ [] ∧ pat.isPrefixOf (c :: rest) then
      rep ++ replChars ((c :: rest).drop pat.length) pat rep
    else c :: replChars rest pat rep
termination_by s.length
decreasing_by
  · have h1 : 1 ≤ pat.length := by
      cases pat with
      | nil => exact absurd rfl h.1
      | cons a t => simp
    simp [List.length_drop]
    omega
  · simp

/-- String wrapper for `replChars`. -/
def stringsReplace (s old new : String) : String :=
  ⟨replChars s.data old.data new.data⟩

/-- The loop of `Route.URL`: Go iterates `i` over `pairs` with stride
one; each element is used as a name (`fmt.Sprintf("<%v>", pairs[i])`)
and the next element, when it exists, as the percent-encoded value; the
last element therefore gets the empty string as its value.  Arguments
are modelled as the strings `fmt.Sprint` renders them to. -/
def urlPairsLoop (s : String) (pairs : List String) : String :=
  match pairs with
  | [] => s
  | n :: rest =>
    let value := match rest with
      | [] => ""
      | v :: _ => queryEscape v
    urlPairsLoop (stringsReplace s ("<" ++ n ++ ">") value) rest

/-- `Route.URL` from route.go. -/
def Route.URL (r : Route) (pairs : List String) : String :=
  urlPairsLoop r.template pairs

/-! ## Route registration -/

/-- `newRoute` from route.go: concatenates the group path, records the
name before the `*` rewrite, rewrites a trailing `*` to `<:.*>`,
computes the template and registers the route in the engine's
name-to-route map.  The Go function updates `group.engine` in place;
the model returns the updated engine. -/
def newRoute (path0 : String) (g : RouterGroup) (e : Engine) : Route × Engine :=
  let path1 := g.path ++ path0
  let name := path1
  let path2 :=
    if path1.data.getLast? = some '*' then
      (⟨path1.data.dropLast⟩ : String) ++ "<:.*>"
    else path1
  let r : Route :=
    { group := g, name := name, path := path2, template := buildURLTemplate path2 }
  (r, { e with routes := alistSet e.routes name r })

/-- `Route.Name` from route.go: renames the route and re-registers it
under the new name (the old key is left in the map, as in Go). -/
def Route.Name (r : Route) (name : String) (e : Engine) : Route × Engine :=
  let r2 := { r with name := name }
  (r2, { e with routes := alistSet e.routes name r2 })

/-- `Engine.add` from engine.go: fetches or creates the method's store,
adds the compiled path with its handler chain, and raises `maxParams`
when needed. -/
def Engine.add (e : Engine) (method path : String) (handlers : List HStep) :
    Engine :=
  let st := (alistGet e.stores method).getD (newStore _)
  let r := st.Add path handlers
  { e with stores := alistSet e.stores method r.1,
           maxParams := if r.2 > e.maxParams then r.2 else e.maxParams }

/-- `Route.add` from route.go: combines the owning group's handlers
with the route handlers and registers the chain for the method. -/
def Route.add (r : Route) (method : String) (handlers : List HStep) (e : Engine) :
    Engine :=
  e.add method r.path (combineHandlers r.group.handlers handlers)

/-- `Route.GET` shortcut. -/
def Route.GET (r : Route) (handlers : List HStep) (e : Engine) : Engine :=
  r.add "GET" handlers e

/-- `Route.POST` shortcut. -/
def Route.POST (r : Route) (handlers : List HStep) (e : Engine) : Engine :=
  r.add "POST" handlers e

/-! ## Dispatcher -/

/-- `Engine.find` from engine.go: the chain and parameter names of the
method store's match, else the not-found chain.  (Parameter values go
into a caller-owned buffer in Go and are not returned here.) -/
def Engine.find (e : Engine) (method path : String) : List HStep × List String :=
  match alistGet e.stores method with
  | some st =>
    match st.Get path with
    | some (hh, pnames, _) => (hh, pnames)
    | none => (e.notFoundHandlers, [])
  | none => (e.notFoundHandlers, [])

/-- `Engine.findAllowedMethods` from engine.go: every registered method
whose store structurally matches the path. -/
def Engine.findAllowedMethods (e : Engine) (path : String) : List String :=
  (e.stores.filter (fun kv => (kv.2.Get path).isSome)).map Prod.fst

/-- `Engine.NotFound` from engine.go. -/
def Engine.NotFound (e : Engine) (handlers : List HStep) : Engine :=
  { e with notFound := handlers,
           notFoundHandlers := combineHandlers e.handlers handlers }

/-- `Engine.Use` from engine.go: appends to the engine-level group's
handlers and refreshes the not-found chain. -/
def Engine.Use (e : Engine) (handlers : List HStep) : Engine :=
  let e2 := { e with handlers := e.handlers ++ handlers }
  { e2 with notFoundHandlers := combineHandlers e2.handlers e2.notFound }

/-- `Engine.Route` from engine.go: the named route, `none` when the
name is not registered. -/
def Engine.Route (e : Engine) (name : String) : Option Route :=
  alistGet e.routes name

/-- `New()` from engine.go, restricted to the modelled fields: empty
tables and `NotFound(MethodNotAllowedHandler, NotFoundHandler)`. -/
def Engine.New : Engine :=
  Engine.NotFound {} [HStep.mna, HStep.nf]

/-! ## The request context -/

/-- The `Serialize` field of a `Context` holds a Go function value; the
model only tracks which function is installed. -/
inductive SerializeFun
  | defaultSerialize
  | custom (id : Nat)
  deriving DecidableEq

/-- The request-side data of a `fasthttp.RequestCtx`. -/
structure Request where
  method : String := "GET"
  path : String := "/"
  headers : List (String × String) := []
  deriving DecidableEq

/-- `Context` from context.go.  The embedded `fasthttp.RequestCtx` is
flattened into the request fields (`method`, `path`, `reqHeaders`) and
the response fields (`status` — 200 until set, fasthttp's default —
`resHeaders`, `body`, `location`).  `log` and `visited` are ghost
fields recording which handlers ran (their tags) and at which chain
positions; no handler reads them. -/
structure Context where
  engine : Engine := {}
  method : String := ""
  path : String := ""
  reqHeaders : List (String × String) := []
  status : Nat := 200
  resHeaders : List (String × String) := []
  body : String := ""
  location : String := ""
  Serialize : SerializeFun := .defaultSerialize
  aborted : Bool := false
  pnames : List String := []
  pvalues : List String := []
  data : List (String × Nat) := []
  index : Int := -1
  log : List String := []
  visited : List Int := []
  deriving DecidableEq

/-- `Context.GetHeader`: a request header, `""` when absent. -/
def Context.GetHeader (c : Context) (k : String) : String :=
  (alistGet c.reqHeaders k).getD ""

/-- `c.Response.Header.Set(k, v)`. -/
def Context.setRespHeader (c : Context) (k v : String) : Context :=
  { c with resHeaders := alistSet c.resHeaders k v }

/-- A response header, as the recipient would observe it. -/
def Context.respHeader (c : Context) (k : String) : Option String :=
  alistGet c.resHeaders k

/-- `Context.IsAborted` from context.go. -/
def Context.IsAborted (c : Context) : Bool := c.aborted

/-- `Context.Abort` from context.go: sets the flag and forces the
cursor to the chain length.  `chainLen` stands for `len(c.handlers)`;
the chain itself lives outside the state record. -/
def Context.Abort (c : Context) (chainLen : Nat) : Context :=
  { c with aborted := true, index := (chainLen : Int) }

/-- `Context.init` from context.go: rebinds the request/response pair,
replaces the data map, resets the cursor and restores the default
serializer.  All other fields are left as the previous request left
them. -/
def Context.init (c : Context) (req : Request) : Context :=
  { c with method := req.method, path := req.path, reqHeaders := req.headers,
           status := 200, resHeaders := [], body := "", location := "",
           data := [], index := -1, Serialize := .defaultSerialize }

/-- `Context.String` from context.go (named `StringBody` here because a
method called `String` would shadow the `String` type): sets the status
code and writes the text to the response body. -/
def Context.StringBody (c : Context) (statusCode : Nat) (text : String) : Context :=
  { c with status := statusCode, body := c.body ++ text }

/-- `Context.Redirect` from context.go: status code plus a Location. -/
def Context.Redirect (c : Context) (statusCode : Nat) (uri : String) : Context :=
  { c with status := statusCode, location := uri }

/-- `Context.URL` from context.go: build a URL from the named route,
empty string when the name is unknown. -/
def Context.URL (c : Context) (route : String) (pairs : List String) : String :=
  match alistGet c.engine.routes route with
  | some r => r.URL pairs
  | none => ""

/-! ## The two default not-found handlers -/

/-- Lexicographic comparison of character lists, the model of Go's
byte-wise string order used by `sort.Strings` (identical on the ASCII
method names that occur here). -/
def leChars : List Char → List Char → Bool
  | [], _ => true
  | _ :: _, [] => false
  | a :: as, b :: bs => if a < b then true else if b < a then false else leChars as bs

/-- String comparison for `sort.Strings`. -/
def strLe (a b : String) : Bool := leChars a.data b.data

/-- Model of `sort.Strings`: sort ascending (insertion sort — the
result, a sorted permutation, is what matters). -/
def sortStrings (l : List String) : List String :=
  List.insertionSort (fun a b => strLe a b = true) l

/-- `MethodNotAllowedHandler` from engine.go.  `chainLen` is the length
of the chain the handler runs in (used by `Abort`). -/
def MethodNotAllowedHandler (chainLen : Nat) (c : Context) : Context :=
  let methods := c.engine.findAllowedMethods c.path
  if methods = [] then c
  else
    let ms := sortStrings (("OPTIONS" :: methods).dedup)
    let c1 := c.setRespHeader "Allow" (String.intercalate ", " ms)
    let c2 := if c.method ≠ "OPTIONS" then { c1 with status := 405 } else c1
    c2.Abort chainLen

/-- `redirectTrailingSlash` from engine.go: toggles the trailing slash
and redirects when the toggled path is routable; returns the context
and whether it redirected. -/
def redirectTrailingSlash (c : Context) : Context × Bool :=
  if c.GetHeader "Redirect-Trailing-Slash" ≠ "" then (c, false)
  else
    let statusCode := if c.method ≠ "GET" then 307 else 301
    let p :=
      if c.path.data.length > 1 ∧ c.path.data.getLast? = some '/' then
        (⟨c.path.data.dropLast⟩ : String)
      else c.path ++ "/"
    if c.engine.findAllowedMethods p = [] then (c, false)
    else (c.Redirect statusCode p, true)

/-- `NotFoundHandler` from engine.go. -/
def NotFoundHandler (c : Context) : Context :=
  if c.engine.RedirectTrailingSlash then
    let r := redirectTrailingSlash c
    if r.2 then r.1 else r.1.StringBody 404 "Not Found"
  else c.StringBody 404 "Not Found"

/-- `MethodNotAllowedHandler` either leaves the cursor alone (nothing
matched) or sets it to the chain length (abort). -/
theorem mna_index (L : Nat) (c : Context) :
    (MethodNotAllowedHandler L c).index = c.index ∨
      (MethodNotAllowedHandler L c).index = (L : Int) := by
  simp only [MethodNotAllowedHandler, Context.Abort, Context.setRespHeader]
  split
  · exact Or.inl rfl
  · right
    split <;> rfl

/-- `redirectTrailingSlash` moves neither the cursor nor the abort
flag. -/
theorem rts_frame (c : Context) :
    (redirectTrailingSlash c).1.index = c.index ∧
      (redirectTrailingSlash c).1.aborted = c.aborted := by
  simp only [redirectTrailingSlash, Context.Redirect]
  repeat' split
  all_goals exact ⟨rfl, rfl⟩

/-- `NotFoundHandler` never moves the cursor. -/
theorem nfh_index (c : Context) : (NotFoundHandler c).index = c.index := by
  simp only [NotFoundHandler]
  split
  · split
    · exact (rts_frame c).1
    · simp [Context.StringBody, (rts_frame c).1]
  · rfl

/-- `MethodNotAllowedHandler` never clears the abort flag. -/
theorem mna_aborted (L : Nat) (c : Context) (h : c.aborted = true) :
    (MethodNotAllowedHandler L c).aborted = true := by
  simp only [MethodNotAllowedHandler, Context.Abort, Context.setRespHeader]
  split
  · exact h
  · split <;> rfl

/-- `NotFoundHandler` never touches the abort flag. -/
theorem nfh_aborted (c : Context) : (NotFoundHandler c).aborted = c.aborted := by
  simp only [NotFoundHandler]
  split
  · split
    · exact (rts_frame c).2
    · simp [Context.StringBody, (rts_frame c).2]
  · rfl

/-! ## The middleware pipeline -/

mutual

/-- One handler invocation, `c.handlers[c.index](c)` in Go.  The
position is recorded in the ghost `visited` trace; `hs` is the chain
(needed because `nest` re-enters the loop and `Abort` reads its
length); the subtype guarantees the cursor never moves backwards, which
is what makes the Go `for` loop terminate. -/
def run (h : HStep) (hs : List HStep) (c : Context)
    (hlt : c.index < (hs.length : Int)) : { c2 : Context // c.index ≤ c2.index } :=
  let cv : Context := { c with visited := c.visited ++ [c.index] }
  match h with
  | .tag nm => ⟨{ cv with log := cv.log ++ [nm] }, by simp [cv]⟩
  | .abortTag nm =>
    ⟨Context.Abort { cv with log := cv.log ++ [nm] } hs.length, by
      simp [cv, Context.Abort]; omega⟩
  | .nest nm =>
    let c1 : Context := { cv with log := cv.log ++ [nm] }
    let inner := nextLoop hs { c1 with index := c1.index + 1 }
    ⟨{ inner.val with log := inner.val.log ++ [nm ++ ":post"] }, by
      have hp := inner.property
      simp [c1, cv] at hp ⊢
      omega⟩
  | .mna =>
    ⟨MethodNotAllowedHandler hs.length cv, by
      rcases mna_index hs.length cv with h1 | h1 <;> simp [h1, cv] <;> omega⟩
  | .nf => ⟨NotFoundHandler cv, by simp [nfh_index, cv]⟩
termination_by ((hs.length + 1 - c.index).toNat, 0)
decreasing_by
  apply Prod.Lex.left
  simp [c1, cv]
  omega

/-- The loop body of `Context.Next` from context.go:
`for n := len(c.handlers); c.index < n; c.index++ { c.handlers[c.index](c) }`. -/
def nextLoop (hs : List HStep) (c : Context) :
    { c2 : Context // c.index ≤ c2.index } :=
  if h : 0 ≤ c.index ∧ c.index < (hs.length : Int) then
    match run (hs.get ⟨c.index.toNat, by omega⟩) hs c h.2 with
    | ⟨cr, hcr⟩ =>
      match nextLoop hs { cr with index := cr.index + 1 } with
      | ⟨cr2, hcr2⟩ => ⟨cr2, by simp at hcr2; omega⟩
  else ⟨c, le_refl _⟩
termination_by ((hs.length + 1 - c.index).toNat, 1)
decreasing_by
  · apply Prod.Lex.right
    omega
  · apply Prod.Lex.left
    simp
    omega

end

/-- `Context.Next` from context.go: advance the cursor, then run the
loop. -/
def Context.Next (hs : List HStep) (c : Context) : Context :=
  (nextLoop hs { c with index := c.index + 1 }).val

/-- `Engine.HandleRequest` from engine.go: take a pooled context,
`init` it, resolve the chain and parameter names via `find`, and run
the pipeline. -/
def Engine.HandleRequest (e : Engine) (pooled : Context) (req : Request) :
    Context :=
  let c := Context.init { pooled with engine := e } req
  let fr := e.find req.method req.path
  Context.Next fr.1 { c with pnames := fr.2 }

/-! ## Helper lemmas about `replChars` -/

/-- Unfolding: empty subject. -/
theorem replChars_nil (pat rep : List Char) : replChars [] pat rep = [] := by
  rw [replChars]

/-- Unfolding: no match at the head. -/
theorem replChars_cons_neg (c : Char) (rest pat rep : List Char)
    (h : ¬(pat ≠ [] ∧ pat.isPrefixOf (c :: rest))) :
    replChars (c :: rest) pat rep = c :: replChars rest pat rep := by
  rw [replChars, dif_neg h]

/-- Unfolding: match at the head. -/
theorem replChars_cons_pos (c : Char) (rest pat rep : List Char)
    (h : pat ≠ [] ∧ pat.isPrefixOf (c :: rest)) :
    replChars (c :: rest) pat rep =
      rep ++ replChars ((c :: rest).drop pat.length) pat rep := by
  rw [replChars, dif_pos h]

/-- A pattern that occurs nowhere in the subject is never replaced
(list form below, string form after it). -/
theorem replChars_not_sub (pat rep : List Char) (hne : pat ≠ []) :
    ∀ s : List Char, ¬ pat <:+: s → replChars s pat rep = s := by
  intro s
  induction s with
  | nil => intro _; exact replChars_nil pat rep
  | cons c rest ih =>
    intro h
    have hnp : ¬ pat.isPrefixOf (c :: rest) := by
      intro hp
      exact h (List.isPrefixOf_iff_prefix.mp hp).isInfix
    rw [replChars_cons_neg c rest pat rep (by simp [hnp])]
    have : replChars rest pat rep = rest :=
      ih (fun hi => h (List.infix_cons hi))
    rw [this]

/-- String form of `replChars_not_sub`. -/
theorem stringsReplace_not_sub (s old new : String) (hne : old.data ≠ [])
    (h : ¬ old.data <:+: s.data) : stringsReplace s old new = s := by
  unfold stringsReplace
  rw [replChars_not_sub _ _ hne _ h]

/-! ## C9: `Context.init` and the abort flag -/

/-- C9: `Context.init` rebinds the request context, replaces the data
map, sets the cursor to `-1` and restores the default `Serialize`, but
leaves every other field — in particular `aborted` — unchanged; hence a
pooled context whose previous request called `Abort` still reports
`IsAborted() = true` immediately after `init`. -/
theorem claim_C9 (c : Context) (req : Request) (n : Nat) :
    (Context.init c req).aborted = c.aborted ∧
    (Context.init c req).index = -1 ∧
    (Context.init c req).data = [] ∧
    (Context.init c req).Serialize = SerializeFun.defaultSerialize ∧
    (Context.init c req).status = 200 ∧
    (Context.init c req).method = req.method ∧
    (Context.init c req).path = req.path ∧
    (Context.init c req).reqHeaders = req.headers ∧
    (Context.init c req).engine = c.engine ∧
    (Context.init c req).pnames = c.pnames ∧
    (Context.init c req).pvalues = c.pvalues ∧
    (Context.init (Context.Abort c n) req).IsAborted = true := by
  simp [Context.init, Context.Abort, Context.IsAborted]

/-! ## C10: unknown route names -/

/-- C10: for a route name with no entry in the engine's name-to-route
map, `Context.URL` returns the empty string (no substitution happens)
and `Engine.Route` returns nothing. -/
theorem claim_C10 (c : Context) (name : String) (pairs : List String)
    (h : alistGet c.engine.routes name = none) :
    Context.URL c name pairs = "" ∧ Engine.Route c.engine name = none := by
  constructor
  · simp [Context.URL, h]
  · simp [Engine.Route, h]

/-- C10 witness: a fresh context has no route named `"missing"`. -/
theorem claim_C10_witness :
    Context.URL {} "missing" ["id", "1"] = "" ∧
      Engine.Route (Context.engine {}) "missing" = none :=
  claim_C10 {} "missing" ["id", "1"] (by rfl)

/-! ## C5: `Route.URL` substitution -/

/-- C5 counterexample: the claim says a name given with no following
value leaves its token unresolved (literally present) in the output.
The code instead substitutes the empty string: on the route for
`/users/<id>`, `URL("id")` yields `/users/`, in which the token `<id>`
does not occur at all (route_test.go's `Route.URL@3` case exercises the
same behaviour). -/
theorem claim_C5_counterexample :
    (Route.URL (newRoute "/users/<id>" (newRouteGroup "" []) Engine.New).1
        ["id"]) = "/users/" ∧
      ¬ ("<id>".data <:+: "/users/".data) := by
  constructor
  · simp [newRoute, newRouteGroup, Engine.New, Engine.NotFound, Route.URL,
      urlPairsLoop, buildURLTemplate, butGo, stringsReplace, replChars]
  · decide

/-- C5 (amended): `Route.URL` scans the arguments with stride one; each
element acts as a name whose token is replaced by the percent-encoding
of the next element, and the last element's token is replaced by the
empty string (not left unresolved).  Names whose token does not occur
in the template are ignored. -/
theorem claim_C5 (r : Route) (n v : String) :
    Route.URL r [n] = stringsReplace r.template ("<" ++ n ++ ">") "" ∧
    (¬ ("<" ++ n ++ ">").data <:+: r.template.data →
      Route.URL r [n] = r.template) ∧
    (¬ ("<" ++ v ++ ">").data <:+:
        (stringsReplace r.template ("<" ++ n ++ ">") (queryEscape v)).data →
      Route.URL r [n, v] =
        stringsReplace r.template ("<" ++ n ++ ">") (queryEscape v)) := by
  have hne : ∀ m : String, ("<" ++ m ++ ">").data ≠ [] := by
    intro m
    simp [String.data_append]
  refine ⟨rfl, ?_, ?_⟩
  · intro h
    show stringsReplace r.template ("<" ++ n ++ ">") "" = r.template
    exact stringsReplace_not_sub _ _ _ (hne n) h
  · intro h
    show stringsReplace (stringsReplace r.template ("<" ++ n ++ ">") (queryEscape v))
        ("<" ++ v ++ ">") "" = _
    exact stringsReplace_not_sub _ _ _ (hne v) h

/-- C5 witness: on the route for `/users/<id>/<action>`, the amended
statement evaluates as expected for the arguments `("zz")` and
`("zz", "1")`. -/
theorem claim_C5_witness :
    (Route.URL (newRoute "/users/<id>/<action>" (newRouteGroup "" []) Engine.New).1
        ["zz"] =
      (newRoute "/users/<id>/<action>" (newRouteGroup "" []) Engine.New).1.template) ∧
    (Route.URL (newRoute "/users/<id>/<action>" (newRouteGroup "" []) Engine.New).1
        ["zz", "1"] =
      stringsReplace
        (newRoute "/users/<id>/<action>" (newRouteGroup "" []) Engine.New).1.template
        "<zz>" (queryEscape "1")) := by
  have h := claim_C5 (newRoute "/users/<id>/<action>" (newRouteGroup "" []) Engine.New).1
    "zz" "1"
  refine ⟨h.2.1 ?_, h.2.2 ?_⟩
  · simp [newRoute, newRouteGroup, Engine.New, Engine.NotFound, buildURLTemplate,
      butGo]
    decide
  · simp [newRoute, newRouteGroup, Engine.New, Engine.NotFound, buildURLTemplate,
      butGo, stringsReplace, replChars, queryEscape, escapeChar, isUnreserved,
      hexUpper]
    decide

/-! ## Pipeline unfolding helpers -/

/-- The loop does nothing once the cursor is outside the chain. -/
theorem nextLoop_neg (hs : List HStep) (c : Context)
    (h : ¬(0 ≤ c.index ∧ c.index < (hs.length : Int))) :
    (nextLoop hs c).val = c := by
  rw [nextLoop, dif_neg h]

/-- One iteration of the loop: invoke the handler at the cursor, bump
the cursor, continue. -/
theorem nextLoop_pos (hs : List HStep) (c : Context) (h0 : 0 ≤ c.index)
    (hlt : c.index < (hs.length : Int)) :
    (nextLoop hs c).val =
      (nextLoop hs
        { (run (hs.get ⟨c.index.toNat, by omega⟩) hs c hlt).val with
          index := (run (hs.get ⟨c.index.toNat, by omega⟩) hs c hlt).val.index + 1 }).val := by
  rw [nextLoop, dif_pos ⟨h0, hlt⟩]

/-- `run` on a plain logging handler. -/
theorem run_tag (nm : String) (hs : List HStep) (c : Context)
    (hlt : c.index < (hs.length : Int)) :
    (run (HStep.tag nm) hs c hlt).val =
      { c with visited := c.visited ++ [c.index], log := c.log ++ [nm] } := by
  rw [run]

/-- Running the loop over a chain of logging handlers logs the names
from the cursor position on, in order. -/
theorem nextLoop_tags (names : List String) : ∀ (k : Nat) (c : Context),
    0 ≤ c.index → names.length - c.index.toNat ≤ k →
    (nextLoop (names.map HStep.tag) c).val.log = c.log ++ names.drop c.index.toNat := by
  intro k
  induction k with
  | zero =>
    intro c h0 hk
    rw [nextLoop_neg _ _ (by simp; intro; omega)]
    rw [List.drop_eq_nil_of_le (by omega)]
    simp
  | succ k ih =>
    intro c h0 hk
    by_cases hlt : c.index < ((names.map HStep.tag).length : Int)
    · rw [nextLoop_pos _ _ h0 hlt]
      have hidx : c.index.toNat < names.length := by simp at hlt; omega
      have hget : (names.map HStep.tag).get ⟨c.index.toNat, by omega⟩ =
          HStep.tag (names.get ⟨c.index.toNat, hidx⟩) := by
        simp
      rw [hget]
      rw [run_tag]
      rw [ih _ (by simp; omega) (by simp; omega)]
      simp
      have h2 : (c.index + 1).toNat = c.index.toNat + 1 := by omega
      rw [h2, ← List.drop_eq_getElem_cons hidx]
    · rw [nextLoop_neg _ _ (by simp at hlt ⊢; intro; omega)]
      rw [List.drop_eq_nil_of_le (by simp at hlt; omega)]
      simp

/-- Reading back the key just written to an association list. -/
theorem alistGet_set (l : List (String × α)) (k : String) (v : α) :
    alistGet (alistSet l k v) k = some v := by
  induction l with
  | nil => simp [alistSet, alistGet]
  | cons p t ih =>
    rcases p with ⟨k2, v2⟩
    by_cases h : k2 = k
    · simp [alistSet, alistGet, h]
    · simp [alistSet, alistGet, h, ih]

/-! ## C1: middleware ordering -/

/-- C1: for a route registered through `Route.add` under nested groups
G1 (handlers `g1`) and G2 (created from G1 and given `g2` via `Use`),
the stored chain is exactly the owning group's handler list followed by
the route handlers, and `Context.Next` executes it front to back: the
logged sequence is `g1 ++ g2 ++ rh`. -/
theorem claim_C1 (g1 g2 rh : List String) (gp1 gp2 rp method : String)
    (e : Engine) (c : Context) :
    let G2 := RouterGroup.Use
      (RouterGroup.Group (newRouteGroup gp1 (g1.map HStep.tag)) gp2 [])
      (g2.map HStep.tag)
    let nr := newRoute rp G2 e
    let chain := combineHandlers G2.handlers (rh.map HStep.tag)
    chain = (g1 ++ g2 ++ rh).map HStep.tag ∧
    (∃ st, alistGet (Route.add nr.1 method (rh.map HStep.tag) nr.2).stores method
        = some st ∧
      st.routes.getLast? = some (parsePattern nr.1.path, chain)) ∧
    (Context.Next chain { c with index := -1 }).log = c.log ++ (g1 ++ g2 ++ rh) := by
  dsimp only
  have hc : combineHandlers
      (RouterGroup.Use
        (RouterGroup.Group (newRouteGroup gp1 (g1.map HStep.tag)) gp2 [])
        (g2.map HStep.tag)).handlers (rh.map HStep.tag) =
      (g1 ++ g2 ++ rh).map HStep.tag := by
    simp [combineHandlers, RouterGroup.Use, RouterGroup.Group, newRouteGroup]
  refine ⟨hc, ?_, ?_⟩
  · refine ⟨_, alistGet_set _ _ _, ?_⟩
    simp [store.Add, combineHandlers, newRoute, RouterGroup.Use, RouterGroup.Group,
      newRouteGroup]
  · rw [hc]
    show (nextLoop _ _).val.log = _
    rw [nextLoop_tags (g1 ++ g2 ++ rh) ((g1 ++ g2 ++ rh).length) _ (by simp)
      (by simp)]
    simp

/-! ## C3: insertion-order priority in the route store -/

/-- Scanning an appended route list skips a first block that matches
nothing. -/
theorem storeScan_append_none (l1 l2 : List (List Seg × α)) (cs : List Char)
    (h : storeScan l1 cs = none) :
    storeScan (l1 ++ l2) cs = storeScan l2 cs := by
  induction l1 with
  | nil => simp
  | cons hd t ih =>
    rcases hd with ⟨segs, d⟩
    rw [List.cons_append]
    rw [storeScan] at h ⊢
    rcases hm : matchSegs segs cs with _ | bs
    · rw [hm] at h
      simp at h ⊢
      exact ih h
    · rw [hm] at h
      simp at h

/-- C3: in one store, when patterns A then B are registered in that
order on top of routes that do not match `p`, and both A and B
structurally match `p`, `Get p` returns A's payload: ties go to
insertion order, not to alphabetical or specificity order. -/
theorem claim_C3 (s0 : store α) (pA pB p : String) (a b : α)
    (hnone : store.Get s0 p = none)
    (hA : (matchSegs (parsePattern pA) p.data).isSome)
    (hB : (matchSegs (parsePattern pB) p.data).isSome) :
    ((store.Add (store.Add s0 pA a).1 pB b).1.Get p).map Prod.fst = some a := by
  rcases Option.isSome_iff_exists.mp hA with ⟨bs, hbs⟩
  unfold store.Get store.Add at *
  simp only at *
  rw [List.append_assoc]
  rw [storeScan_append_none _ _ _ hnone]
  show (storeScan ((parsePattern pA, a) :: [(parsePattern pB, b)]) p.data).map
      Prod.fst = some a
  rw [storeScan.eq_def]
  simp only
  rw [hbs]
  simp

/-- C3 witness: the parameter pattern `/users/<name>` is registered
before the literal `/users/admin`; both match `/users/admin`, and the
first-registered (less specific!) one wins. -/
theorem claim_C3_witness :
    store.Get (newStore Nat) "/users/admin" = none ∧
    (matchSegs (parsePattern "/users/<name>") "/users/admin".data).isSome ∧
    (matchSegs (parsePattern "/users/admin") "/users/admin".data).isSome ∧
    ((store.Add (store.Add (newStore Nat) "/users/<name>" 1).1
        "/users/admin" 2).1.Get "/users/admin").map Prod.fst = some 1 :=
  ⟨rfl, by decide, by decide,
    claim_C3 (newStore Nat) "/users/<name>" "/users/admin" "/users/admin" 1 2
      rfl (by decide) (by decide)⟩

/-! ## C8: `findAllowedMethods` -/

/-- C8 counterexample: with `/x` registered only for GET,
`findAllowedMethods "/x"` is exactly `["GET"]` — the function itself
does not include OPTIONS (that happens later, in
`MethodNotAllowedHandler`). -/
theorem claim_C8_counterexample :
    Engine.findAllowedMethods (Engine.add Engine.New "GET" "/x" [HStep.tag "h"])
        "/x" = ["GET"] ∧
      "OPTIONS" ∉
        Engine.findAllowedMethods (Engine.add Engine.New "GET" "/x" [HStep.tag "h"])
          "/x" := by
  constructor
  · decide
  · decide

/-- C8 (amended): `findAllowedMethods` returns exactly the registered
methods whose store structurally matches the path; OPTIONS is not added
by it but by `MethodNotAllowedHandler`, whose sorted method list always
contains OPTIONS. -/
theorem claim_C8 (e : Engine) (p m : String) :
    (m ∈ e.findAllowedMethods p ↔
      ∃ st, (m, st) ∈ e.stores ∧ (st.Get p).isSome) ∧
    "OPTIONS" ∈ sortStrings (("OPTIONS" :: e.findAllowedMethods p).dedup) := by
  constructor
  · simp [Engine.findAllowedMethods, List.mem_map, List.mem_filter]
  · rw [sortStrings, (List.perm_insertionSort _ _).mem_iff, List.mem_dedup]
    exact List.mem_cons_self _ _

/-! ## C4: method-not-allowed dispatch -/

/-- `run` on the `MethodNotAllowedHandler` step. -/
theorem run_mna (hs : List HStep) (c : Context)
    (hlt : c.index < (hs.length : Int)) :
    (run HStep.mna hs c hlt).val =
      MethodNotAllowedHandler hs.length
        { c with visited := c.visited ++ [c.index] } := by
  rw [run]

/-- When the request's method store has no match, `find` falls back to
the not-found chain. -/
theorem find_fallback (e : Engine) (m p : String)
    (hfail : ∀ st, alistGet e.stores m = some st → st.Get p = none) :
    e.find m p = (e.notFoundHandlers, []) := by
  unfold Engine.find
  rcases hst : alistGet e.stores m with _ | st
  · rfl
  · dsimp only
    rw [hfail st hst]

/-- The Allow header value computed by `MethodNotAllowedHandler`:
the structurally matching methods plus OPTIONS, sorted and joined with
a comma and a space. -/
def allowValue (e : Engine) (p : String) : String :=
  String.intercalate ", "
    (sortStrings (("OPTIONS" :: e.findAllowedMethods p).dedup))

/-- `MethodNotAllowedHandler` when some method matches: set the Allow
header, set 405 unless the request method is OPTIONS, abort. -/
theorem mna_else (L : Nat) (c : Context)
    (h : ¬ c.engine.findAllowedMethods c.path = []) :
    MethodNotAllowedHandler L c =
      Context.Abort
        (if c.method ≠ "OPTIONS" then
          { Context.setRespHeader c "Allow" (allowValue c.engine c.path) with
              status := 405 }
        else Context.setRespHeader c "Allow" (allowValue c.engine c.path)) L := by
  unfold MethodNotAllowedHandler allowValue
  rw [if_neg h]

/-- Running the default not-found chain `[mna, nf]` on a context whose
path is routable under some method: Allow is set, the status becomes
405 unless the method is OPTIONS (in which case it stays as `init` left
it), and the pipeline is aborted before `NotFoundHandler` could run. -/
theorem next_mna_nf (c1 : Context) (h0 : c1.index = -1)
    (hsome : ¬ c1.engine.findAllowedMethods c1.path = []) :
    (Context.Next [HStep.mna, HStep.nf] c1).status =
      (if c1.method ≠ "OPTIONS" then 405 else c1.status) ∧
    (Context.Next [HStep.mna, HStep.nf] c1).respHeader "Allow" =
      some (allowValue c1.engine c1.path) ∧
    (Context.Next [HStep.mna, HStep.nf] c1).aborted = true := by
  unfold Context.Next
  rw [h0]
  have h01 : (-1 : Int) + 1 = 0 := by norm_num
  rw [h01]
  rw [nextLoop_pos _ _ (by simp) (by simp)]
  have hget : ([HStep.mna, HStep.nf].get ⟨(0 : Int).toNat, by simp⟩) = HStep.mna :=
    rfl
  rw [hget, run_mna]
  rw [mna_else _ _ (by simpa using hsome)]
  rw [nextLoop_neg _ _ (by split <;> simp [Context.Abort])]
  simp [Context.Abort, Context.setRespHeader, Context.respHeader]
  split <;> simp [alistGet_set]

/-- C4: if the path is registered for at least one method but the
request's method has no match, the dispatched not-found chain produces
status 405 with `Allow` equal to the sorted comma-space-joined set of
structurally matching methods plus OPTIONS, and aborts; an OPTIONS
request to the same path gets status 200 with the same header. -/
theorem claim_C4 (e : Engine) (p m : String) (hdrs : List (String × String))
    (pooled : Context)
    (hnfh : e.notFoundHandlers = [HStep.mna, HStep.nf])
    (hfail : ∀ st, alistGet e.stores m = some st → st.Get p = none)
    (hsome : e.findAllowedMethods p ≠ []) :
    (m ≠ "OPTIONS" →
      (e.HandleRequest pooled ⟨m, p, hdrs⟩).status = 405 ∧
      (e.HandleRequest pooled ⟨m, p, hdrs⟩).respHeader "Allow" =
        some (allowValue e p) ∧
      (e.HandleRequest pooled ⟨m, p, hdrs⟩).IsAborted = true) ∧
    (m = "OPTIONS" →
      (e.HandleRequest pooled ⟨m, p, hdrs⟩).status = 200 ∧
      (e.HandleRequest pooled ⟨m, p, hdrs⟩).respHeader "Allow" =
        some (allowValue e p)) := by
  unfold Engine.HandleRequest
  rw [find_fallback e m p hfail, hnfh]
  dsimp only
  simp only [Context.init]
  have h := next_mna_nf
    { Context.init { pooled with engine := e } ⟨m, p, hdrs⟩ with
      pnames := ([] : List String) }
    (by simp [Context.init]) (by simpa [Context.init] using hsome)
  simp only [Context.init] at h
  rcases h with ⟨h1, h2, h3⟩
  constructor
  · intro hm
    refine ⟨?_, ?_, ?_⟩
    · rw [h1, if_pos hm]
    · rw [h2]
    · exact h3
  · intro hm
    refine ⟨?_, ?_⟩
    · rw [h1, if_neg (by simp [hm])]
    · rw [h2]

/-- C4 witness: `/x` registered only for GET; a POST request gets 405
with `Allow: GET, OPTIONS`, an OPTIONS request gets 200 with the same
header. -/
theorem claim_C4_witness :
    ((Engine.add Engine.New "GET" "/x" [HStep.tag "h"]).HandleRequest {}
        ⟨"POST", "/x", []⟩).status = 405 ∧
    ((Engine.add Engine.New "GET" "/x" [HStep.tag "h"]).HandleRequest {}
        ⟨"POST", "/x", []⟩).respHeader "Allow" = some "GET, OPTIONS" ∧
    ((Engine.add Engine.New "GET" "/x" [HStep.tag "h"]).HandleRequest {}
        ⟨"OPTIONS", "/x", []⟩).status = 200 ∧
    ((Engine.add Engine.New "GET" "/x" [HStep.tag "h"]).HandleRequest {}
        ⟨"OPTIONS", "/x", []⟩).respHeader "Allow" = some "GET, OPTIONS" := by
  have hPost := claim_C4 (Engine.add Engine.New "GET" "/x" [HStep.tag "h"])
    "/x" "POST" [] {} (by decide)
    (by
      intro st h
      rw [(by decide :
        alistGet (Engine.add Engine.New "GET" "/x" [HStep.tag "h"]).stores "POST"
          = none)] at h
      exact Option.noConfusion h)
    (by decide)
  have hOpt := claim_C4 (Engine.add Engine.New "GET" "/x" [HStep.tag "h"])
    "/x" "OPTIONS" [] {} (by decide)
    (by
      intro st h
      rw [(by decide :
        alistGet (Engine.add Engine.New "GET" "/x" [HStep.tag "h"]).stores
          "OPTIONS" = none)] at h
      exact Option.noConfusion h)
    (by decide)
  obtain ⟨hp1, hp2, _⟩ := hPost.1 (by decide)
  obtain ⟨ho1, ho2⟩ := hOpt.2 rfl
  have hav : allowValue (Engine.add Engine.New "GET" "/x" [HStep.tag "h"]) "/x"
      = "GET, OPTIONS" := by decide
  rw [hav] at hp2 ho2
  exact ⟨hp1, hp2, ho1, ho2⟩

/-! ## C6: `newRoute` and the URL template -/

/-- Render a parsed segment back to pattern text. -/
def renderSeg : Seg → List Char
  | .lit s => s.data
  | .param n none => '<' :: n.data ++ ['>']
  | .param n (some r) => '<' :: n.data ++ ':' :: r.data ++ ['>']

/-- Render a parsed pattern back to its text. -/
def renderSegs (segs : List Seg) : List Char := (segs.map renderSeg).flatten

/-- Drop the regex constraint of a token, as the URL template does. -/
def stripSeg : Seg → Seg
  | .lit s => .lit s
  | .param n _ => .param n none

/-- Whether a segment is a parameter token. -/
def isParamSeg : Seg → Bool
  | .lit _ => false
  | .param _ _ => true

/-- Well-formedness of one segment: literals contain no `<`/`>`,
token names no `<`/`>`/`:`, regex texts no `<`/`>`. -/
def wfSegB : Seg → Bool
  | .lit s => s.data.all (fun c => c != '<' && c != '>')
  | .param n re =>
    n.data.all (fun c => c != '<' && c != '>' && c != ':') &&
    (match re with
     | none => true
     | some r => r.data.all (fun c => c != '<' && c != '>'))

/-- Well-formedness of a parsed pattern. -/
def wfSegs (segs : List Seg) : Bool := segs.all wfSegB

/-- A literal run without `<`/`>` flows into `pending`. -/
theorem butGo_lit (l : List Char) (hl : ∀ c ∈ l, c ≠ '<' ∧ c ≠ '>') :
    ∀ (X pending tmpl : List Char) (closed : Bool),
    butGo (l ++ X) false [] pending tmpl closed =
      butGo X false [] (pending ++ l) tmpl closed := by
  induction l with
  | nil => intro X pending tmpl closed; simp
  | cons c t ih =>
    intro X pending tmpl closed
    have hc := hl c (by simp)
    rw [List.cons_append, butGo]
    rw [if_neg (by simp [hc.1]), if_neg (by simp), if_neg (by simp)]
    rw [ih (fun x hx => hl x (by simp [hx])) X (pending ++ [c]) tmpl closed]
    simp

/-- A token body without `<`/`>` flows into `tokBuf`. -/
theorem butGo_tok (b : List Char) (hb : ∀ c ∈ b, c ≠ '<' ∧ c ≠ '>') :
    ∀ (X tokBuf pending tmpl : List Char) (closed : Bool),
    butGo (b ++ X) true tokBuf pending tmpl closed =
      butGo X true (tokBuf ++ b) pending tmpl closed := by
  induction b with
  | nil => intro X tokBuf pending tmpl closed; simp
  | cons c t ih =>
    intro X tokBuf pending tmpl closed
    have hc := hb c (by simp)
    rw [List.cons_append, butGo]
    rw [if_neg (by simp), if_neg (by simp [hc.2]), if_pos (by simp)]
    rw [ih (fun x hx => hb x (by simp [hx])) X (tokBuf ++ [c]) pending tmpl closed]
    simp

/-- `takeWhile (· ≠ ':')` keeps a colon-free list whole. -/
theorem takeWhile_colon_free (n : List Char) (hn : ':' ∉ n) :
    n.takeWhile (· ≠ ':') = n := by
  induction n with
  | nil => simp
  | cons c t ih =>
    rw [List.takeWhile_cons]
    rw [if_pos (by simp; intro h; exact hn (by simp [h]))]
    rw [ih (fun h => hn (by simp [h]))]

theorem takeWhile_colon_append (n r : List Char) (hn : ':' ∉ n) :
    (n ++ ':' :: r).takeWhile (· ≠ ':') = n := by
  induction n with
  | nil => simp
  | cons c t ih =>
    rw [List.cons_append, List.takeWhile_cons]
    rw [if_pos (by simp; intro h; exact hn (by simp [h]))]
    rw [ih (fun h => hn (by simp [h]))]


/-- Character facts from a well-formed literal. -/
theorem wf_lit_chars (s : String) (h : wfSegB (Seg.lit s) = true) :
    ∀ c ∈ s.data, c ≠ '<' ∧ c ≠ '>' := by
  simp [wfSegB, List.all_eq_true] at h
  intro c hc
  exact h c hc

/-- Character facts from a well-formed token name. -/
theorem wf_param_name (n : String) (re : Option String)
    (h : wfSegB (Seg.param n re) = true) :
    (∀ c ∈ n.data, c ≠ '<' ∧ c ≠ '>') ∧ ':' ∉ n.data := by
  simp [wfSegB, List.all_eq_true] at h
  constructor
  · intro c hc
    exact ⟨(h.1 c hc).1.1, (h.1 c hc).1.2⟩
  · intro hc
    exact (h.1 ':' hc).2 rfl

/-- Character facts from a well-formed regex text. -/
theorem wf_param_re (n : String) (r : String)
    (h : wfSegB (Seg.param n (some r)) = true) :
    ∀ c ∈ r.data, c ≠ '<' ∧ c ≠ '>' := by
  simp [wfSegB, List.all_eq_true] at h
  intro c hc
  exact h.2 c hc

/-- Stripping is the identity on a pattern without parameters. -/
theorem map_strip_of_no_param (segs : List Seg) (h : segs.any isParamSeg = false) :
    segs.map stripSeg = segs := by
  induction segs with
  | nil => rfl
  | cons seg rest ih =>
    simp at h
    cases seg with
    | lit s => simp [stripSeg, ih (by simpa using h.2)]
    | param n re => simp [isParamSeg] at h

/-- An opening `<` outside a token starts one. -/
theorem butGo_open (cs tokBuf pending tmpl : List Char) (closed : Bool) :
    butGo ('<' :: cs) false tokBuf pending tmpl closed =
      butGo cs true [] pending tmpl closed := by
  rw [butGo.eq_def]
  simp

/-- A closing `>` inside a token emits `pending` and the stripped
token. -/
theorem butGo_close (cs tokBuf pending tmpl : List Char) (closed : Bool) :
    butGo ('>' :: cs) true tokBuf pending tmpl closed =
      butGo cs false [] []
        (tmpl ++ pending ++ '<' :: tokBuf.takeWhile (· ≠ ':') ++ ['>']) true := by
  rw [butGo.eq_def]
  simp

/-- The scanning loop on a rendered well-formed pattern emits the
pattern with every token's regex constraint stripped. -/
theorem butGo_segs (segs : List Seg) (hwf : wfSegs segs = true) :
    ∀ (pending tmpl : List Char) (closed : Bool),
    butGo (renderSegs segs) false [] pending tmpl closed =
      if segs.any isParamSeg then
        (tmpl ++ pending ++ renderSegs (segs.map stripSeg), true)
      else (tmpl ++ pending ++ renderSegs segs, closed) := by
  induction segs with
  | nil =>
    intro pending tmpl closed
    simp [renderSegs, butGo]
  | cons seg rest ih =>
    have hwf1 : wfSegB seg = true := by
      simp [wfSegs] at hwf; exact hwf.1
    have hwf2 : wfSegs rest = true := by
      simp [wfSegs] at hwf; simpa [wfSegs] using hwf.2
    intro pending tmpl closed
    cases seg with
    | lit s =>
      have hr : renderSegs (Seg.lit s :: rest) = s.data ++ renderSegs rest := by
        simp [renderSegs, renderSeg]
      rw [hr, butGo_lit s.data (wf_lit_chars s hwf1), ih hwf2]
      by_cases hp : rest.any isParamSeg
      · rw [if_pos hp, if_pos (by simp [hp])]
        simp [renderSegs, stripSeg, renderSeg]
      · rw [if_neg hp, if_neg (by simp [isParamSeg, hp])]
        simp [renderSegs, renderSeg]
    | param n re =>
      have hname := wf_param_name n re hwf1
      have hstep : butGo (renderSegs (Seg.param n re :: rest)) false [] pending tmpl closed =
          butGo (renderSegs rest) false [] []
            (tmpl ++ pending ++ '<' :: n.data ++ ['>']) true := by
        cases re with
        | none =>
          have hr : renderSegs (Seg.param n none :: rest) =
              '<' :: (n.data ++ '>' :: renderSegs rest) := by
            simp [renderSegs, renderSeg]
          rw [hr, butGo_open, butGo_tok n.data hname.1, butGo_close]
          simp only [List.nil_append]
          rw [takeWhile_colon_free n.data hname.2]
        | some r =>
          have hr : renderSegs (Seg.param n (some r) :: rest) =
              '<' :: ((n.data ++ ':' :: r.data) ++ '>' :: renderSegs rest) := by
            simp [renderSegs, renderSeg]
          have hchars : ∀ c ∈ n.data ++ ':' :: r.data, c ≠ '<' ∧ c ≠ '>' := by
            intro c hc
            rcases List.mem_append.mp hc with h1 | h1
            · exact hname.1 c h1
            · rcases List.mem_cons.mp h1 with h2 | h2
              · simp [h2]
              · exact wf_param_re n r hwf1 c h2
          rw [hr, butGo_open, butGo_tok _ hchars, butGo_close]
          simp only [List.nil_append]
          rw [takeWhile_colon_append n.data r.data hname.2]
      rw [hstep, ih hwf2]
      by_cases hp : rest.any isParamSeg
      · rw [if_pos hp, if_pos (by simp [isParamSeg])]
        simp [renderSegs, stripSeg, renderSeg]
      · rw [if_neg hp, if_pos (by simp [isParamSeg])]
        rw [List.map_cons, map_strip_of_no_param rest (by simpa using hp)]
        simp [renderSegs, renderSeg, stripSeg]


/-- `buildURLTemplate` on a rendered well-formed pattern replaces every
`<name:regex>` token by `<name>` and keeps all other characters. -/
theorem buildURLTemplate_segs (segs : List Seg) (hwf : wfSegs segs = true) :
    buildURLTemplate ⟨renderSegs segs⟩ = ⟨renderSegs (segs.map stripSeg)⟩ := by
  unfold buildURLTemplate
  rw [show (⟨renderSegs segs⟩ : String).data = renderSegs segs from rfl]
  rw [butGo_segs segs hwf [] [] false]
  by_cases hp : segs.any isParamSeg
  · rw [if_pos hp]
    simp
  · rw [if_neg hp]
    simp
    rw [map_strip_of_no_param segs (by simpa using hp)]

/-- C6: `newRoute` concatenates the group path with the pattern,
registers the route under the full concatenated pattern (the original
`*` included) in the name-to-route map, rewrites a trailing `*` into
`<:.*>`, and computes a template in which every `<name:regex>` token
becomes `<name>` while all other characters are unchanged. -/
theorem claim_C6 (g : RouterGroup) (p0 : String) (e : Engine) :
    (newRoute p0 g e).1.name = g.path ++ p0 ∧
    (∀ base : String, g.path ++ p0 = base ++ "*" →
      (newRoute p0 g e).1.path = base ++ "<:.*>") ∧
    ((g.path ++ p0).data.getLast? ≠ some '*' →
      (newRoute p0 g e).1.path = g.path ++ p0) ∧
    alistGet (newRoute p0 g e).2.routes (g.path ++ p0) = some (newRoute p0 g e).1 ∧
    (newRoute p0 g e).1.template = buildURLTemplate (newRoute p0 g e).1.path ∧
    (∀ segs : List Seg, wfSegs segs = true →
      (newRoute p0 g e).1.path = (⟨renderSegs segs⟩ : String) →
      (newRoute p0 g e).1.template = ⟨renderSegs (segs.map stripSeg)⟩) := by
  refine ⟨rfl, ?_, ?_, ?_, rfl, ?_⟩
  · intro base hb
    unfold newRoute
    rw [hb]
    dsimp only
    have hlast : (base ++ "*").data.getLast? = some '*' := by
      rw [String.data_append]
      exact List.getLast?_concat _
    rw [if_pos hlast]
    have hdrop : (base ++ "*").data.dropLast = base.data := by
      rw [String.data_append]
      exact List.dropLast_concat
    simp [hdrop]
  · intro hb
    unfold newRoute
    dsimp only
    rw [if_neg hb]
  · exact alistGet_set _ _ _
  · intro segs hwf hpath
    show buildURLTemplate (newRoute p0 g e).1.path = _
    rw [hpath]
    exact buildURLTemplate_segs segs hwf

/-- C6 witness: the route `/users/<id:\d+>/*` under group `/admin`
(the `TestRouteNew` case of route_test.go): name keeps the `*`, the
path gets the internal catch-all and the template renders as
`/admin/users/<id>/<>`. -/
theorem claim_C6_witness :
    (newRoute "/users/<id:\\d+>/*" (newRouteGroup "/admin" []) Engine.New).1.name =
      "/admin/users/<id:\\d+>/*" ∧
    (newRoute "/users/<id:\\d+>/*" (newRouteGroup "/admin" []) Engine.New).1.path =
      "/admin/users/<id:\\d+>/<:.*>" ∧
    (newRoute "/users/<id:\\d+>/*" (newRouteGroup "/admin" []) Engine.New).1.template =
      "/admin/users/<id>/<>" := by
  have h := claim_C6 (newRouteGroup "/admin" []) "/users/<id:\\d+>/*" Engine.New
  refine ⟨h.1.trans (by decide), ?_, ?_⟩
  · exact (h.2.1 "/admin/users/<id:\\d+>/" (by decide)).trans (by decide)
  · exact (h.2.2.2.2.2
      [Seg.lit "/admin/users/", Seg.param "id" (some "\\d+"), Seg.lit "/",
        Seg.param "" (some ".*")]
      (by decide) (by decide)).trans (by decide)

/-! ## C7: URL templating round trip -/

/-- The parameter names of a pattern, in order. -/
def segNames (segs : List Seg) : List String :=
  segs.filterMap (fun s => match s with | .param n _ => some n | _ => none)

/-- Whether every token of the pattern carries no regex constraint
(the shape of a URL template). -/
def allStripped (segs : List Seg) : Bool :=
  segs.all (fun s => match s with | .param _ (some _) => false | _ => true)

/-- The alternating `name1, value1, name2, value2, ...` argument list
of `Route.URL`. -/
def interleave (names vals : List String) : List String :=
  ((names.zip vals).map (fun p => [p.1, p.2])).flatten

/-- `segNames` distributes over append. -/
theorem segNames_append (a b : List Seg) :
    segNames (a ++ b) = segNames a ++ segNames b := by
  simp [segNames]

/-- Stripping regex constraints keeps the parameter names. -/
theorem segNames_strip (segs : List Seg) :
    segNames (segs.map stripSeg) = segNames segs := by
  induction segs with
  | nil => rfl
  | cons seg rest ih =>
    cases seg with
    | lit s => simp [segNames, stripSeg] at ih ⊢; exact ih
    | param n re => simp [segNames, stripSeg] at ih ⊢; exact ih

/-- Stripping preserves well-formedness. -/
theorem wf_strip (segs : List Seg) (h : wfSegs segs = true) :
    wfSegs (segs.map stripSeg) = true := by
  induction segs with
  | nil => rfl
  | cons seg rest ih =>
    simp [wfSegs] at h ⊢
    refine ⟨?_, by simpa [wfSegs] using ih (by simp [wfSegs]; exact h.2)⟩
    cases seg with
    | lit s => exact h.1
    | param n re =>
      simp [wfSegB, stripSeg] at h ⊢
      exact h.1.1

/-- A stripped pattern is stripped. -/
theorem allStripped_strip (segs : List Seg) :
    allStripped (segs.map stripSeg) = true := by
  induction segs with
  | nil => rfl
  | cons seg rest ih =>
    cases seg with
    | lit s => simpa [allStripped, stripSeg] using ih
    | param n re => simpa [allStripped, stripSeg] using ih

/-- A well-formed pattern without parameters renders without `<`/`>`. -/
theorem render_no_params_chars (segs : List Seg) (hwf : wfSegs segs = true)
    (hnp : segNames segs = []) :
    ∀ c ∈ renderSegs segs, c ≠ '<' ∧ c ≠ '>' := by
  induction segs with
  | nil => simp [renderSegs]
  | cons seg rest ih =>
    cases seg with
    | lit s =>
      simp [wfSegs] at hwf
      intro c hc
      rw [show renderSegs (Seg.lit s :: rest) = s.data ++ renderSegs rest from by
        simp [renderSegs, renderSeg]] at hc
      rcases List.mem_append.mp hc with h1 | h1
      · exact wf_lit_chars s hwf.1 c h1
      · exact ih (by simp [wfSegs]; exact hwf.2)
          (by simpa [segNames] using hnp) c h1
    | param n re => simp [segNames] at hnp

/-- With one value per name, every name occurs in the argument list. -/
theorem mem_interleave (names vals : List String)
    (hlen : vals.length = names.length) :
    ∀ n ∈ names, n ∈ interleave names vals := by
  induction names generalizing vals with
  | nil => simp
  | cons hd t ih =>
    cases vals with
    | nil => simp at hlen
    | cons v vs =>
      intro n hn
      simp at hlen
      rcases List.mem_cons.mp hn with h1 | h1
      · simp [interleave, h1]
      · have := ih vs (by omega) n h1
        simp [interleave] at this ⊢
        tauto


/-- Hex digits are never `<` or `>`. -/
theorem hexUpper_safe (n : Nat) (h : n < 16) :
    hexUpper n ≠ '<' ∧ hexUpper n ≠ '>' := by
  interval_cases n <;> decide

/-- `QueryEscape` escapes `<` and `>`, so its per-character output
never contains them. -/
theorem escapeChar_safe (ch : Char) : ∀ c ∈ escapeChar ch, c ≠ '<' ∧ c ≠ '>' := by
  intro c hc
  unfold escapeChar at hc
  split at hc
  · rename_i hu
    rcases List.mem_singleton.mp hc with rfl
    constructor
    · intro h
      rw [h] at hu
      exact absurd hu (by decide)
    · intro h
      rw [h] at hu
      exact absurd hu (by decide)
  · split at hc
    · rcases List.mem_singleton.mp hc with rfl
      decide
    · simp only [List.mem_flatten, List.mem_map] at hc
      rcases hc with ⟨l, ⟨b, _, rfl⟩, hcl⟩
      rcases List.mem_cons.mp hcl with rfl | hcl2
      · decide
      · rcases List.mem_cons.mp hcl2 with rfl | hcl3
        · exact hexUpper_safe _ (Nat.div_lt_of_lt_mul (by
            have := b.toNat_lt
            omega))
        · rcases List.mem_cons.mp hcl3 with rfl | hcl4
          · exact hexUpper_safe _ (Nat.mod_lt _ (by omega))
          · simp at hcl4

/-- A percent-encoded value contains neither `<` nor `>`. -/
theorem queryEscape_safe (v : String) :
    ∀ c ∈ (queryEscape v).data, c ≠ '<' ∧ c ≠ '>' := by
  intro c hc
  unfold queryEscape at hc
  simp only [List.mem_flatten, List.mem_map] at hc
  rcases hc with ⟨l, ⟨ch, _, rfl⟩, hcl⟩
  exact escapeChar_safe ch c hcl


/-- The scanner passes over characters that cannot start the pattern. -/
theorem replChars_skip (l R pat rep : List Char)
    (hl : ∀ c ∈ l, pat.head? ≠ some c) :
    replChars (l ++ R) pat rep = l ++ replChars R pat rep := by
  induction l with
  | nil => simp
  | cons c t ih =>
    rw [List.cons_append]
    rw [replChars_cons_neg c (t ++ R) pat rep ?_]
    · rw [ih (fun x hx => hl x (by simp [hx]))]
      simp
    · rintro ⟨hne, hpre⟩
      rcases pat with _ | ⟨p, ps⟩
      · exact hne rfl
      · have : p = c := by
          have h2 := List.isPrefixOf_iff_prefix.mp hpre
          rcases h2 with ⟨tail, htail⟩
          simp at htail
          exact htail.1
        exact hl c (by simp) (by simp [this])

/-- A prefix no longer than the first block is a prefix of it. -/
theorem prefix_short : ∀ (a p R : List Char), p <+: a ++ R →
    p.length ≤ a.length → p <+: a := by
  intro a
  induction a with
  | nil =>
    intro p R hp hl
    rw [List.length_nil, Nat.le_zero, List.length_eq_zero] at hl
    subst hl
    exact List.nil_prefix
  | cons c a2 ih =>
    intro p R hp hl
    cases p with
    | nil => exact List.nil_prefix
    | cons d p2 =>
      rw [List.cons_append, List.cons_prefix_cons] at hp
      rcases hp with ⟨rfl, hp2⟩
      rw [List.cons_prefix_cons]
      exact ⟨rfl, ih p2 R hp2 (by simpa using hl)⟩

/-- A prefix at least as long as the first block contains it. -/
theorem peel_prefix : ∀ (a p R : List Char), p <+: a ++ R →
    a.length ≤ p.length → ∃ p2, p = a ++ p2 ∧ p2 <+: R := by
  intro a
  induction a with
  | nil =>
    intro p R hp _
    exact ⟨p, by simp, by simpa using hp⟩
  | cons c a2 ih =>
    intro p R hp hl
    cases p with
    | nil => simp at hl
    | cons d p2 =>
      rw [List.cons_append, List.cons_prefix_cons] at hp
      rcases hp with ⟨rfl, hp2⟩
      rcases ih p2 R hp2 (by simpa using hl) with ⟨p3, rfl, hp3⟩
      exact ⟨p3, by simp, hp3⟩

/-- Splitting `q ++ ['>']` after a first block of known length. -/
theorem append_last_split (q m p2 : List Char) (h : q ++ ['>'] = m ++ p2)
    (hle : m.length ≤ q.length) :
    ∃ q2, q = m ++ q2 ∧ p2 = q2 ++ ['>'] := by
  have htake : q.take m.length = m := by
    have h2 := congrArg (List.take m.length) h
    rw [List.take_append_eq_append_take, List.take_left] at h2
    rw [Nat.sub_eq_zero_of_le hle] at h2
    simpa using h2
  have hsplit : m ++ q.drop m.length = q := by
    conv_rhs => rw [← List.take_append_drop m.length q]
    rw [htake]
  refine ⟨q.drop m.length, hsplit.symm, ?_⟩
  have h3 : m ++ (q.drop m.length ++ ['>']) = m ++ p2 := by
    rw [← List.append_assoc, hsplit]
    exact h
  exact (List.append_cancel_left h3).symm

/-- In a rendered stripped pattern, `>` occurs only at token ends:
every prefix ending in `>` is the rendering of a whole run of leading
segments. -/
theorem render_consume : ∀ (segs : List Seg), wfSegs segs = true →
    allStripped segs = true →
    ∀ q : List Char, (q ++ ['>']) <+: renderSegs segs →
    ∃ s1 s2, segs = s1 ++ s2 ∧ s1 ≠ [] ∧ renderSegs s1 = q ++ ['>'] := by
  intro segs
  induction segs with
  | nil =>
    intro _ _ q hp
    have := hp.length_le
    simp [renderSegs] at this
  | cons seg rest ih =>
    intro hwf hst q hp
    have hwf1 : wfSegB seg = true := by simp [wfSegs] at hwf; exact hwf.1
    have hwf2 : wfSegs rest = true := by
      simp [wfSegs] at hwf; simp [wfSegs]; exact hwf.2
    have hst2 : allStripped rest = true := by
      simp [allStripped] at hst; simp [allStripped]; exact hst.2
    cases seg with
    | lit s =>
      rw [show renderSegs (Seg.lit s :: rest) = s.data ++ renderSegs rest from by
        simp [renderSegs, renderSeg]] at hp
      by_cases hle : q.length + 1 ≤ s.data.length
      · exfalso
        have hsub := prefix_short s.data (q ++ ['>']) (renderSegs rest) hp
          (by simp only [List.length_append, List.length_cons, List.length_nil]
              omega)
        have hmem : '>' ∈ s.data := hsub.subset (by simp)
        exact (wf_lit_chars s hwf1 '>' hmem).2 rfl
      · have hlen : s.data.length ≤ (q ++ ['>']).length := by
          simp only [List.length_append, List.length_cons, List.length_nil]
          omega
        rcases peel_prefix s.data (q ++ ['>']) (renderSegs rest) hp hlen with
          ⟨p2, hpeq, hp2⟩
        rcases append_last_split q s.data p2 hpeq (by omega) with
          ⟨q2, rfl, rfl⟩
        rcases ih hwf2 hst2 q2 hp2 with ⟨s1, s2, rfl, hne, hrender⟩
        refine ⟨Seg.lit s :: s1, s2, by simp, by simp, ?_⟩
        rw [show renderSegs (Seg.lit s :: s1) = s.data ++ renderSegs s1 from by
          simp [renderSegs, renderSeg]]
        rw [hrender]
        simp
    | param n re =>
      cases re with
      | some r => simp [allStripped] at hst
      | none =>
        rw [show renderSegs (Seg.param n none :: rest) =
            '<' :: (n.data ++ '>' :: renderSegs rest) from by
          simp [renderSegs, renderSeg]] at hp
        cases q with
        | nil =>
          rw [List.nil_append, List.cons_prefix_cons] at hp
          exact absurd hp.1 (by decide)
        | cons c q1 =>
          rw [List.cons_append, List.cons_prefix_cons] at hp
          rcases hp with ⟨rfl, hp1⟩
          by_cases hle : q1.length + 1 ≤ n.data.length
          · exfalso
            have hsub := prefix_short n.data (q1 ++ ['>'])
              ('>' :: renderSegs rest) (by simpa using hp1)
              (by simp only [List.length_append, List.length_cons, List.length_nil]
                  omega)
            have hmem : '>' ∈ n.data := hsub.subset (by simp)
            exact ((wf_param_name n none hwf1).1 '>' hmem).2 rfl
          · have hlen : n.data.length ≤ (q1 ++ ['>']).length := by
              simp only [List.length_append, List.length_cons, List.length_nil]
              omega
            rcases peel_prefix n.data (q1 ++ ['>']) ('>' :: renderSegs rest)
              (by simpa using hp1) hlen with ⟨p2, hpeq, hp2⟩
            rcases append_last_split q1 n.data p2 hpeq (by omega) with
              ⟨q2, rfl, rfl⟩
            cases q2 with
            | nil =>
              refine ⟨[Seg.param n none], rest, by simp, by simp, ?_⟩
              simp [renderSegs, renderSeg]
            | cons d q3 =>
              rw [List.cons_append, List.cons_prefix_cons] at hp2
              rcases hp2 with ⟨rfl, hp3⟩
              rcases ih hwf2 hst2 q3 hp3 with ⟨s1, s2, rfl, hne, hrender⟩
              refine ⟨Seg.param n none :: s1, s2, by simp, by simp, ?_⟩
              rw [show renderSegs (Seg.param n none :: s1) =
                  '<' :: (n.data ++ '>' :: renderSegs s1) from by
                simp [renderSegs, renderSeg]]
              rw [hrender]
              simp


/-- The scanner replaces a pattern occurrence found at the head. -/
theorem replChars_head_match (s pat rep : List Char) (hne : pat ≠ [])
    (hpre : pat.isPrefixOf s = true) :
    replChars s pat rep = rep ++ replChars (s.drop pat.length) pat rep := by
  cases s with
  | nil =>
    rw [List.isPrefixOf_iff_prefix] at hpre
    rcases hpre with ⟨k, hk⟩
    simp at hk
    exact absurd hk.1 hne
  | cons c rest => exact replChars_cons_pos c rest pat rep ⟨hne, hpre⟩

/-- A literal contributes no parameter name. -/
theorem segNames_cons_lit (s : String) (rest : List Seg) :
    segNames (Seg.lit s :: rest) = segNames rest := by
  simp [segNames]

/-- A token contributes its name. -/
theorem segNames_cons_param (n : String) (re : Option String) (rest : List Seg) :
    segNames (Seg.param n re :: rest) = n :: segNames rest := by
  simp [segNames]

/-- One `strings.Replace` pass over a rendered stripped pattern with
pattern `<x>` and a `<`/`>`-free replacement yields another rendered
stripped pattern; no new parameter names appear and no token named `x`
survives. -/
theorem repl_step (x : String) (rep : List Char)
    (hrep : ∀ c ∈ rep, c ≠ '<' ∧ c ≠ '>') :
    ∀ (L : Nat) (segs : List Seg), segs.length ≤ L → wfSegs segs = true →
    allStripped segs = true →
    ∃ segs3,
      replChars (renderSegs segs) ('<' :: x.data ++ ['>']) rep = renderSegs segs3 ∧
      wfSegs segs3 = true ∧ allStripped segs3 = true ∧
      (∀ nm ∈ segNames segs3, nm ∈ segNames segs ∧ nm ≠ x) := by
  intro L
  induction L with
  | zero =>
    intro segs hlen hwf hst
    rw [Nat.le_zero, List.length_eq_zero] at hlen
    subst hlen
    exact ⟨[], by simp [renderSegs, replChars_nil], rfl, rfl, by simp [segNames]⟩
  | succ L ih =>
    intro segs hlen hwf hst
    by_cases hm : ('<' :: x.data ++ ['>']).isPrefixOf (renderSegs segs) = true
    · have hm2 : (('<' :: x.data) ++ ['>']) <+: renderSegs segs := by
        rw [← List.isPrefixOf_iff_prefix]
        simpa using hm
      rcases render_consume segs hwf hst ('<' :: x.data) hm2 with
        ⟨s1, s2, rfl, hne, hrender⟩
      have hwfs2 : wfSegs s2 = true := by
        simp [wfSegs] at hwf ⊢
        exact hwf.2
      have hsts2 : allStripped s2 = true := by
        simp [allStripped] at hst ⊢
        exact hst.2
      have hlen2 : s2.length ≤ L := by
        rcases s1 with _ | ⟨a, s1t⟩
        · exact absurd rfl hne
        · simp at hlen
          omega
      rcases ih s2 hlen2 hwfs2 hsts2 with ⟨segs3, heq, hwf3, hst3, hnames3⟩
      refine ⟨Seg.lit ⟨rep⟩ :: segs3, ?_, ?_, ?_, ?_⟩
      · rw [replChars_head_match _ _ _ (by simp) hm]
        rw [show renderSegs (s1 ++ s2) = renderSegs s1 ++ renderSegs s2 from by
          simp [renderSegs]]
        have hdl : (renderSegs s1 ++ renderSegs s2).drop
            ('<' :: x.data ++ ['>']).length = renderSegs s2 := by
          rw [show ('<' :: x.data ++ ['>']).length = (renderSegs s1).length from by
            rw [hrender]]
          exact List.drop_left _ _
        rw [hdl, heq]
        simp [renderSegs, renderSeg]
      · simp [wfSegs] at hwf3 ⊢
        refine ⟨?_, hwf3⟩
        simp [wfSegB, List.all_eq_true]
        intro c hc
        exact ⟨(hrep c hc).1, (hrep c hc).2⟩
      · simp [allStripped] at hst3 ⊢
        exact hst3
      · intro nm hnm
        rw [segNames_cons_lit] at hnm
        rcases hnames3 nm hnm with ⟨h1, h2⟩
        refine ⟨?_, h2⟩
        rw [segNames_append]
        exact List.mem_append_right _ h1
    · cases segs with
      | nil =>
        exact ⟨[], by simp [renderSegs, replChars_nil], rfl, rfl, by simp [segNames]⟩
      | cons seg rest =>
        have hwf1 : wfSegB seg = true := by simp [wfSegs] at hwf; exact hwf.1
        have hwf2 : wfSegs rest = true := by
          simp [wfSegs] at hwf; simp [wfSegs]; exact hwf.2
        have hst2 : allStripped rest = true := by
          simp [allStripped] at hst; simp [allStripped]; exact hst.2
        have hlen2 : rest.length ≤ L := by simp at hlen; omega
        rcases ih rest hlen2 hwf2 hst2 with ⟨segs3, heq, hwf3, hst3, hnames3⟩
        cases seg with
        | lit s =>
          refine ⟨Seg.lit s :: segs3, ?_, ?_, ?_, ?_⟩
          · rw [show renderSegs (Seg.lit s :: rest) = s.data ++ renderSegs rest from
              by simp [renderSegs, renderSeg]]
            rw [replChars_skip _ _ _ _ ?_]
            · rw [heq]
              simp [renderSegs, renderSeg]
            · intro c hc hhead
              simp at hhead
              exact (wf_lit_chars s hwf1 c hc).1 hhead.symm
          · simp [wfSegs] at hwf3 ⊢
            exact ⟨hwf1, hwf3⟩
          · simp [allStripped] at hst3 ⊢
            exact hst3
          · intro nm hnm
            rw [segNames_cons_lit] at hnm
            rcases hnames3 nm hnm with ⟨h1, h2⟩
            refine ⟨?_, h2⟩
            rw [segNames_cons_lit]
            exact h1
        | param n re =>
          cases re with
          | some r => simp [allStripped] at hst
          | none =>
            have hnx : n ≠ x := by
              intro heq2
              subst heq2
              apply hm
              rw [List.isPrefixOf_iff_prefix]
              rw [show renderSegs (Seg.param n none :: rest) =
                  ('<' :: n.data ++ ['>']) ++ renderSegs rest from by
                simp [renderSegs, renderSeg]]
              exact List.prefix_append _ _
            refine ⟨Seg.param n none :: segs3, ?_, ?_, ?_, ?_⟩
            · rw [show renderSegs (Seg.param n none :: rest) =
                  '<' :: (n.data ++ '>' :: renderSegs rest) from by
                simp [renderSegs, renderSeg]]
              rw [replChars_cons_neg _ _ _ _ ?_]
              · rw [replChars_skip _ _ _ _ ?_]
                · rw [replChars_cons_neg _ _ _ _ ?_]
                  · rw [heq]
                    simp [renderSegs, renderSeg]
                  · rintro ⟨_, hpre⟩
                    rw [List.isPrefixOf_iff_prefix] at hpre
                    rcases hpre with ⟨k, hk⟩
                    simp at hk
                · intro c hc hhead
                  simp at hhead
                  exact ((wf_param_name n none hwf1).1 c hc).1 hhead.symm
              · rintro ⟨_, hpre⟩
                apply hm
                rw [show renderSegs (Seg.param n none :: rest) =
                    '<' :: (n.data ++ '>' :: renderSegs rest) from by
                  simp [renderSegs, renderSeg]]
                exact hpre
            · simp [wfSegs] at hwf3 ⊢
              exact ⟨hwf1, hwf3⟩
            · simp [allStripped] at hst3 ⊢
              exact hst3
            · intro nm hnm
              rw [segNames_cons_param] at hnm
              rcases List.mem_cons.mp hnm with rfl | h1
              · refine ⟨?_, hnx⟩
                rw [segNames_cons_param]
                exact List.mem_cons_self _ _
              · rcases hnames3 nm h1 with ⟨h2, h3⟩
                refine ⟨?_, h3⟩
                rw [segNames_cons_param]
                exact List.mem_cons_of_mem _ h2


/-- The whole `Route.URL` loop keeps the string a rendered stripped
pattern; every surviving token name comes from the original pattern and
occurs nowhere in the argument list. -/
theorem url_loop_structured : ∀ (pairs : List String) (segs : List Seg),
    wfSegs segs = true → allStripped segs = true →
    ∃ segs3,
      urlPairsLoop ⟨renderSegs segs⟩ pairs = (⟨renderSegs segs3⟩ : String) ∧
      wfSegs segs3 = true ∧ allStripped segs3 = true ∧
      (∀ nm ∈ segNames segs3, nm ∈ segNames segs ∧ nm ∉ pairs) := by
  intro pairs
  induction pairs with
  | nil =>
    intro segs hwf hst
    exact ⟨segs, rfl, hwf, hst, fun nm h => ⟨h, by simp⟩⟩
  | cons x rest ih =>
    intro segs hwf hst
    have htok : ("<" ++ x ++ ">").data = '<' :: x.data ++ ['>'] := by
      simp [String.data_append]
    have hstep0 : ∀ value : String, (∀ c ∈ value.data, c ≠ '<' ∧ c ≠ '>') →
        ∃ segs2,
          stringsReplace ⟨renderSegs segs⟩ ("<" ++ x ++ ">") value =
            (⟨renderSegs segs2⟩ : String) ∧
          wfSegs segs2 = true ∧ allStripped segs2 = true ∧
          (∀ nm ∈ segNames segs2, nm ∈ segNames segs ∧ nm ≠ x) := by
      intro value hrep
      rcases repl_step x value.data hrep segs.length segs (Nat.le_refl _) hwf hst
        with ⟨segs2, heq, hwf2, hst2, hnm2⟩
      refine ⟨segs2, ?_, hwf2, hst2, hnm2⟩
      show (⟨replChars (renderSegs segs) ("<" ++ x ++ ">").data value.data⟩ :
        String) = _
      rw [htok, heq]
    cases rest with
    | nil =>
      rcases hstep0 "" (by simp) with ⟨segs2, heq2, hwf2, hst2, hnm2⟩
      refine ⟨segs2, heq2, hwf2, hst2, ?_⟩
      intro nm hnm
      rcases hnm2 nm hnm with ⟨h1, h2⟩
      exact ⟨h1, by simp [h2]⟩
    | cons v vs =>
      rcases hstep0 (queryEscape v) (queryEscape_safe v) with
        ⟨segs2, heq2, hwf2, hst2, hnm2⟩
      rcases ih segs2 hwf2 hst2 with ⟨segs3, heq3, hwf3, hst3, hnm3⟩
      refine ⟨segs3, ?_, hwf3, hst3, ?_⟩
      · show urlPairsLoop
          (stringsReplace ⟨renderSegs segs⟩ ("<" ++ x ++ ">") (queryEscape v))
          (v :: vs) = _
        rw [heq2, heq3]
      · intro nm hnm
        rcases hnm3 nm hnm with ⟨h1, h2⟩
        rcases hnm2 nm h1 with ⟨h3, h4⟩
        refine ⟨h3, ?_⟩
        intro hmem
        rcases List.mem_cons.mp hmem with rfl | h5
        · exact h4 rfl
        · exact h2 h5

/-- C7: starting from any well-formed route pattern, applying
`buildURLTemplate` and then `Route.URL` substitution with every
parameter name of the pattern supplied (each name followed by a value)
produces a concrete path containing no `<` or `>` at all — in
particular no literal `<...>` token. -/
theorem claim_C7 (segs : List Seg) (vals : List String)
    (hwf : wfSegs segs = true)
    (hlen : vals.length = (segNames segs).length) :
    ∀ c ∈ (Route.URL
        { group := ⟨"", []⟩, name := "", path := ⟨renderSegs segs⟩,
          template := buildURLTemplate ⟨renderSegs segs⟩ }
        (interleave (segNames segs) vals)).data,
      c ≠ '<' ∧ c ≠ '>' := by
  intro c hc
  have hT := buildURLTemplate_segs segs hwf
  rw [show Route.URL
      { group := ⟨"", []⟩, name := "", path := ⟨renderSegs segs⟩,
        template := buildURLTemplate ⟨renderSegs segs⟩ }
      (interleave (segNames segs) vals) =
      urlPairsLoop (buildURLTemplate ⟨renderSegs segs⟩)
        (interleave (segNames segs) vals) from rfl] at hc
  rw [hT] at hc
  rcases url_loop_structured (interleave (segNames segs) vals)
      (segs.map stripSeg) (wf_strip segs hwf) (allStripped_strip segs) with
    ⟨segs3, heq, hwf3, hst3, hnm3⟩
  rw [heq] at hc
  have hempty : segNames segs3 = [] := by
    rw [List.eq_nil_iff_forall_not_mem]
    intro nm hnm
    rcases hnm3 nm hnm with ⟨h1, h2⟩
    rw [segNames_strip] at h1
    exact h2 (mem_interleave (segNames segs) vals hlen nm h1)
  exact render_no_params_chars segs3 hwf3 hempty c hc

/-- C7 witness: the pattern `/users/<id:\d+>/<action>` with values
`42` and `go` yields a token-free URL. -/
theorem claim_C7_witness :
    '<' ∉ (Route.URL
        { group := ⟨"", []⟩, name := "",
          path := ⟨renderSegs [Seg.lit "/users/", Seg.param "id" (some "\\d+"),
            Seg.lit "/", Seg.param "action" none]⟩,
          template := buildURLTemplate ⟨renderSegs [Seg.lit "/users/",
            Seg.param "id" (some "\\d+"), Seg.lit "/",
            Seg.param "action" none]⟩ }
        (interleave (segNames [Seg.lit "/users/", Seg.param "id" (some "\\d+"),
          Seg.lit "/", Seg.param "action" none]) ["42", "go"])).data ∧
    '>' ∉ (Route.URL
        { group := ⟨"", []⟩, name := "",
          path := ⟨renderSegs [Seg.lit "/users/", Seg.param "id" (some "\\d+"),
            Seg.lit "/", Seg.param "action" none]⟩,
          template := buildURLTemplate ⟨renderSegs [Seg.lit "/users/",
            Seg.param "id" (some "\\d+"), Seg.lit "/",
            Seg.param "action" none]⟩ }
        (interleave (segNames [Seg.lit "/users/", Seg.param "id" (some "\\d+"),
          Seg.lit "/", Seg.param "action" none]) ["42", "go"])).data :=
  ⟨fun h => (claim_C7 [Seg.lit "/users/", Seg.param "id" (some "\\d+"),
      Seg.lit "/", Seg.param "action" none] ["42", "go"] (by decide) (by decide)
      '<' h).1 rfl,
   fun h => (claim_C7 [Seg.lit "/users/", Seg.param "id" (some "\\d+"),
      Seg.lit "/", Seg.param "action" none] ["42", "go"] (by decide) (by decide)
      '>' h).2 rfl⟩

end Tokay
namespace Tokay

/-! ## C2: abort semantics -/

/-- `MethodNotAllowedHandler` either leaves both the cursor and the
abort flag untouched, or jumps to the chain length with the flag
set. -/
theorem mna_cases (L : Nat) (c : Context) :
    ((MethodNotAllowedHandler L c).index = c.index ∧
      (MethodNotAllowedHandler L c).aborted = c.aborted) ∨
    ((MethodNotAllowedHandler L c).index = (L : Int) ∧
      (MethodNotAllowedHandler L c).aborted = true) := by
  simp only [MethodNotAllowedHandler, Context.Abort, Context.setRespHeader]
  split
  · exact Or.inl ⟨rfl, rfl⟩
  · right
    split <;> exact ⟨rfl, rfl⟩

/-- `MethodNotAllowedHandler` never touches the ghost visit trace. -/
theorem mna_visited (L : Nat) (c : Context) :
    (MethodNotAllowedHandler L c).visited = c.visited := by
  simp only [MethodNotAllowedHandler, Context.Abort, Context.setRespHeader]
  split
  · rfl
  · split <;> rfl

/-- `NotFoundHandler` never touches the ghost visit trace. -/
theorem nfh_visited (c : Context) : (NotFoundHandler c).visited = c.visited := by
  simp only [NotFoundHandler]
  split
  · split
    · simp only [redirectTrailingSlash, Context.Redirect]
      repeat' split
      all_goals rfl
    · simp only [redirectTrailingSlash, Context.StringBody, Context.Redirect]
      repeat' split
      all_goals rfl
  · rfl

/-- No handler shape ever clears the abort flag, neither does the
`Next` loop: once `c.aborted` holds it holds after any further
pipeline activity.  `k` is fuel dominating the loop measure. -/
theorem abort_mono : ∀ (k : Nat),
    (∀ (h : HStep) (hs : List HStep) (c : Context)
      (hlt : c.index < (hs.length : Int)),
      2 * ((hs.length : Int) + 1 - c.index).toNat ≤ k →
      c.aborted = true → (run h hs c hlt).val.aborted = true) ∧
    (∀ (hs : List HStep) (c : Context),
      2 * ((hs.length : Int) + 1 - c.index).toNat + 1 ≤ k →
      c.aborted = true → (nextLoop hs c).val.aborted = true) := by
  intro k
  induction k using Nat.strong_induction_on with
  | _ k ih =>
    constructor
    · intro h hs c hlt hk hab
      cases h with
      | tag nm => rw [run_tag]; exact hab
      | abortTag nm => rw [run]; rfl
      | nest nm =>
        rw [run]
        simp only
        rcases k with _ | k2
        · omega
        · refine (ih k2 (by omega)).2 hs _ ?_ hab
          show 2 * ((hs.length : Int) + 1 - (c.index + 1)).toNat + 1 ≤ k2
          omega
      | mna =>
        rw [run_mna]
        exact mna_aborted _ _ hab
      | nf =>
        rw [run]
        simp only
        rw [nfh_aborted]
        exact hab
    · intro hs c hk hab
      by_cases hg : 0 ≤ c.index ∧ c.index < (hs.length : Int)
      · rw [nextLoop_pos _ _ hg.1 hg.2]
        rcases k with _ | k2
        · omega
        · have hr := (ih k2 (by omega)).1 (hs.get ⟨c.index.toNat, by omega⟩) hs c
            hg.2 (by omega) hab
          have hprop := (run (hs.get ⟨c.index.toNat, by omega⟩) hs c hg.2).property
          refine (ih k2 (by omega)).2 hs _ ?_ hr
          show 2 * ((hs.length : Int) + 1 -
            ((run (hs.get ⟨c.index.toNat, by omega⟩) hs c hg.2).val.index + 1)).toNat + 1 ≤ k2
          omega
      · rw [nextLoop_neg _ _ hg]
        exact hab

/-- `run` on the aborting handler: log, record the visit, then
`Context.Abort`. -/
theorem run_abortTag (nm : String) (hs : List HStep) (c : Context)
    (hlt : c.index < (hs.length : Int)) :
    (run (HStep.abortTag nm) hs c hlt).val =
      Context.Abort
        { c with
          visited := c.visited ++ [c.index],
          log := c.log ++ [nm] } hs.length := by
  rw [run]

/-- `run` on a nesting handler: log, record the visit, re-enter the
loop from the next position, then log the post marker. -/
theorem run_nest (nm : String) (hs : List HStep) (c : Context)
    (hlt : c.index < (hs.length : Int)) :
    (run (HStep.nest nm) hs c hlt).val =
      { (nextLoop hs
          { c with
            visited := c.visited ++ [c.index],
            log := c.log ++ [nm],
            index := c.index + 1 }).val with
        log := (nextLoop hs
          { c with
            visited := c.visited ++ [c.index],
            log := c.log ++ [nm],
            index := c.index + 1 }).val.log ++ [nm ++ ":post"] } := by
  rw [run]

/-- `run` on the not-found step. -/
theorem run_nf (hs : List HStep) (c : Context)
    (hlt : c.index < (hs.length : Int)) :
    (run HStep.nf hs c hlt).val =
      NotFoundHandler { c with visited := c.visited ++ [c.index] } := by
  rw [run]

/-- Core invariant behind C2.  In a chain whose `i`-th handler calls
`Abort`, a single handler invocation started at a position `≤ i`
either leaves the cursor and the abort flag alone or jumps past the
end of the chain with the flag set, visits only positions `≤ i`, and
when started exactly at `i` always jumps and aborts; consequently the
`Next` loop entered at a position `≤ i` visits only positions `≤ i`,
terminates aborted, never clears an abort flag, and always exits with
the cursor past the end of the chain.  `k` is fuel dominating the
loop measure. -/
theorem c2_master (nm : String) (hs : List HStep) (i : Nat)
    (hmid : hs[i]? = some (HStep.abortTag nm)) : ∀ (k : Nat),
    (∀ (hstep : HStep) (c : Context) (hlt : c.index < (hs.length : Int)),
      0 ≤ c.index → c.index ≤ (i : Int) →
      (c.index = (i : Int) → hstep = HStep.abortTag nm) →
      2 * ((hs.length : Int) + 1 - c.index).toNat ≤ k →
      ((∀ j ∈ (run hstep hs c hlt).val.visited,
          j ∈ c.visited ∨ (0 ≤ j ∧ j ≤ (i : Int))) ∧
        (((run hstep hs c hlt).val.index = c.index ∧
            (run hstep hs c hlt).val.aborted = c.aborted) ∨
          ((hs.length : Int) ≤ (run hstep hs c hlt).val.index ∧
            (run hstep hs c hlt).val.aborted = true)) ∧
        (c.index = (i : Int) →
          (hs.length : Int) ≤ (run hstep hs c hlt).val.index ∧
            (run hstep hs c hlt).val.aborted = true))) ∧
    (∀ (c : Context), 0 ≤ c.index →
      (c.index ≤ (i : Int) ∨ (hs.length : Int) ≤ c.index) →
      2 * ((hs.length : Int) + 1 - c.index).toNat + 1 ≤ k →
      ((∀ j ∈ (nextLoop hs c).val.visited,
          j ∈ c.visited ∨ (0 ≤ j ∧ j ≤ (i : Int))) ∧
        (c.index ≤ (i : Int) → (nextLoop hs c).val.aborted = true) ∧
        (c.aborted = true → (nextLoop hs c).val.aborted = true) ∧
        (hs.length : Int) ≤ (nextLoop hs c).val.index)) := by
  have hiL : i < hs.length := by
    by_contra hc
    rw [List.getElem?_eq_none (by omega)] at hmid
    exact Option.noConfusion hmid
  intro k
  induction k using Nat.strong_induction_on with
  | _ k ih =>
    constructor
    · intro hstep c hlt h0 hi habt hk
      cases hstep with
      | tag nm2 =>
        rw [run_tag]
        refine ⟨?_, ?_, ?_⟩
        · intro j hj
          simp only [List.mem_append, List.mem_singleton] at hj
          rcases hj with hj | hj
          · exact Or.inl hj
          · subst hj
            exact Or.inr ⟨h0, hi⟩
        · exact Or.inl ⟨rfl, rfl⟩
        · intro hpi
          exact HStep.noConfusion (habt hpi)
      | abortTag nm2 =>
        rw [run_abortTag]
        refine ⟨?_, ?_, ?_⟩
        · intro j hj
          simp only [Context.Abort, List.mem_append, List.mem_singleton] at hj
          rcases hj with hj | hj
          · exact Or.inl hj
          · subst hj
            exact Or.inr ⟨h0, hi⟩
        · right
          refine ⟨?_, rfl⟩
          show (hs.length : Int) ≤ (hs.length : Int)
          exact le_refl _
        · intro hpi
          refine ⟨?_, rfl⟩
          show (hs.length : Int) ≤ (hs.length : Int)
          exact le_refl _
      | nest nm2 =>
        have hlt2 : c.index < (i : Int) := by
          rcases lt_or_eq_of_le hi with h2 | h2
          · exact h2
          · exact HStep.noConfusion (habt h2)
        rw [run_nest]
        rcases k with _ | k2
        · exfalso
          omega
        · obtain ⟨hv, hab2, hstab, hLidx⟩ :=
            (ih k2 (Nat.lt_succ_self _)).2
              { c with
                visited := c.visited ++ [c.index],
                log := c.log ++ [nm2],
                index := c.index + 1 }
              (by show (0 : Int) ≤ c.index + 1; omega)
              (by refine Or.inl ?_
                  show c.index + 1 ≤ (i : Int)
                  omega)
              (by show 2 * ((hs.length : Int) + 1 - (c.index + 1)).toNat + 1 ≤ k2
                  omega)
          refine ⟨?_, ?_, ?_⟩
          · intro j hj
            rcases hv j hj with hj2 | hj2
            · simp only [List.mem_append, List.mem_singleton] at hj2
              rcases hj2 with hj2 | hj2
              · exact Or.inl hj2
              · subst hj2
                exact Or.inr ⟨h0, hi⟩
            · exact Or.inr hj2
          · right
            exact ⟨hLidx, hab2 (by show c.index + 1 ≤ (i : Int); omega)⟩
          · intro hpi
            exact absurd hpi (by omega)
      | mna =>
        rw [run_mna]
        refine ⟨?_, ?_, ?_⟩
        · intro j hj
          rw [mna_visited] at hj
          simp only [List.mem_append, List.mem_singleton] at hj
          rcases hj with hj | hj
          · exact Or.inl hj
          · subst hj
            exact Or.inr ⟨h0, hi⟩
        · rcases mna_cases hs.length
            { c with visited := c.visited ++ [c.index] } with ⟨h1, h2⟩ | ⟨h1, h2⟩
          · exact Or.inl ⟨h1, h2⟩
          · exact Or.inr ⟨le_of_eq h1.symm, h2⟩
        · intro hpi
          exact HStep.noConfusion (habt hpi)
      | nf =>
        rw [run_nf]
        refine ⟨?_, ?_, ?_⟩
        · intro j hj
          rw [nfh_visited] at hj
          simp only [List.mem_append, List.mem_singleton] at hj
          rcases hj with hj | hj
          · exact Or.inl hj
          · subst hj
            exact Or.inr ⟨h0, hi⟩
        · exact Or.inl ⟨nfh_index _, nfh_aborted _⟩
        · intro hpi
          exact HStep.noConfusion (habt hpi)
    · intro c h0 hinv hk
      by_cases hg : 0 ≤ c.index ∧ c.index < (hs.length : Int)
      · rw [nextLoop_pos _ _ hg.1 hg.2]
        have hp : c.index ≤ (i : Int) := by
          rcases hinv with h2 | h2
          · exact h2
          · exact absurd hg.2 (by omega)
        rcases k with _ | k2
        · exfalso
          omega
        · have habt2 : c.index = (i : Int) →
              hs.get ⟨c.index.toNat, by omega⟩ = HStep.abortTag nm := by
            intro hpi
            have hti : c.index.toNat = i := by omega
            have h4 : hs[c.index.toNat]? = some (HStep.abortTag nm) := by
              rw [hti]
              exact hmid
            rw [List.get_eq_getElem]
            exact Option.some.inj
              ((List.getElem?_eq_getElem (by omega)).symm.trans h4)
          obtain ⟨hrv, hrd, hra⟩ :=
            (ih k2 (Nat.lt_succ_self _)).1 (hs.get ⟨c.index.toNat, by omega⟩)
              c hg.2 hg.1 hp habt2 (by omega)
          have hprop := (run (hs.get ⟨c.index.toNat, by omega⟩) hs c hg.2).property
          generalize hgen :
            (run (hs.get ⟨c.index.toNat, by omega⟩) hs c hg.2).val = r
            at hprop hrv hrd hra ⊢
          obtain ⟨hlv, hlab, hlstab, hlidx⟩ :=
            (ih k2 (Nat.lt_succ_self _)).2 { r with index := r.index + 1 }
              (by show (0 : Int) ≤ r.index + 1; omega)
              (by by_cases hpi : c.index = (i : Int)
                  · refine Or.inr ?_
                    show (hs.length : Int) ≤ r.index + 1
                    have := (hra hpi).1
                    omega
                  · rcases hrd with ⟨hidx, _⟩ | ⟨hL, _⟩
                    · refine Or.inl ?_
                      show r.index + 1 ≤ (i : Int)
                      omega
                    · refine Or.inr ?_
                      show (hs.length : Int) ≤ r.index + 1
                      omega)
              (by show 2 * ((hs.length : Int) + 1 - (r.index + 1)).toNat + 1 ≤ k2
                  omega)
          refine ⟨?_, ?_, ?_, ?_⟩
          · intro j hj
            rcases hlv j hj with hj2 | hj2
            · exact hrv j hj2
            · exact Or.inr hj2
          · intro hle
            by_cases hpi : c.index = (i : Int)
            · exact hlstab (hra hpi).2
            · rcases hrd with ⟨hidx, hab⟩ | ⟨hL, hab⟩
              · refine hlab ?_
                show r.index + 1 ≤ (i : Int)
                omega
              · exact hlstab hab
          · intro hcab
            rcases hrd with ⟨hidx, hab⟩ | ⟨hL, hab⟩
            · exact hlstab (hab.trans hcab)
            · exact hlstab hab
          · exact hlidx
      · rw [nextLoop_neg _ _ hg]
        have hgeL : (hs.length : Int) ≤ c.index := by
          by_contra hc
          exact hg ⟨h0, by omega⟩
        refine ⟨?_, ?_, ?_, ?_⟩
        · intro j hj
          exact Or.inl hj
        · intro hle
          exfalso
          omega
        · intro hcab
          exact hcab
        · exact hgeL


/-- C2: abort semantics.  Take any chain in which the handler at
position `i = pre.length` calls `Context.Abort` (the `abortTag` step)
and run the pipeline from the start through `Context.Next`.  Then
(1) the final context reports `IsAborted`; (2) every handler position
invoked at any time during the request — invocations made by nested
`Next` loops included, all recorded in the ghost `visited` trace — is
at most `i`, so no handler after the aborting one ever runs; and
(3) abort is permanent: an aborted context stays aborted across any
further handler invocation and any further `Next` loop of the
request. -/
theorem claim_C2 (pre post : List HStep) (nm : String) (c : Context) :
    ((Context.Next (pre ++ HStep.abortTag nm :: post)
        { c with index := -1, visited := [] }).IsAborted = true) ∧
    (∀ j ∈ (Context.Next (pre ++ HStep.abortTag nm :: post)
        { c with index := -1, visited := [] }).visited,
      0 ≤ j ∧ j ≤ (pre.length : Int)) ∧
    (∀ (hstep : HStep) (hs2 : List HStep) (c2 : Context)
        (hlt : c2.index < (hs2.length : Int)),
      c2.IsAborted = true → (run hstep hs2 c2 hlt).val.IsAborted = true) ∧
    (∀ (hs2 : List HStep) (c2 : Context),
      c2.IsAborted = true → (nextLoop hs2 c2).val.IsAborted = true) := by
  have hmid : (pre ++ HStep.abortTag nm :: post)[pre.length]? =
      some (HStep.abortTag nm) := by
    rw [List.getElem?_append_right (le_refl _)]
    simp
  obtain ⟨hv, hab, _, _⟩ :=
    (c2_master nm (pre ++ HStep.abortTag nm :: post) pre.length hmid
        (2 * (((pre ++ HStep.abortTag nm :: post).length : Int) + 1).toNat + 1)).2
      { c with index := -1 + 1, visited := [] }
      (by show (0 : Int) ≤ -1 + 1; omega)
      (Or.inl (by show (-1 : Int) + 1 ≤ (pre.length : Int); omega))
      (by show 2 * (((pre ++ HStep.abortTag nm :: post).length : Int)
              + 1 - (-1 + 1)).toNat + 1 ≤
            2 * (((pre ++ HStep.abortTag nm :: post).length : Int) + 1).toNat + 1
          omega)
  refine ⟨?_, ?_, ?_, ?_⟩
  · exact hab (by show (-1 : Int) + 1 ≤ (pre.length : Int); omega)
  · intro j hj
    rcases hv j hj with hj2 | hj2
    · exact absurd hj2 (List.not_mem_nil j)
    · exact hj2
  · intro hstep hs2 c2 hlt hab2
    exact (abort_mono (2 * ((hs2.length : Int) + 1 - c2.index).toNat)).1
      hstep hs2 c2 hlt (le_refl _) hab2
  · intro hs2 c2 hab2
    exact (abort_mono (2 * ((hs2.length : Int) + 1 - c2.index).toNat + 1)).2
      hs2 c2 (le_refl _) hab2

end Tokay
